import Mathlib

/-!
Verification of the SuperFire Template Image Downloader (src/SuperFire.py)
against its natural-language specification.

The development shallowly embeds the worker logic of `DownloadWorker`
(`__init__`, `run`, `get_files_to_download`, `download_file`) and the header
construction of `ImageDownloaderApp.start_download`.  Python `dict`s of
headers become association lists, the file system becomes explicit state,
the network and the local disk become per-task environment values, and the
Qt signals (`progress`, `log`, `status_update`) become an event trace.

Python computes the progress percentage as `int((downloaded / total) * 100)`
with IEEE-754 binary64 arithmetic (true division of two ints, multiplication
by 100, truncation).  That pipeline is modelled bit-exactly for the normal
range by integer round-to-nearest-even arithmetic below, and related to a
rational-number specification for the monotonicity proofs.
-/

namespace SuperFire

/-! ## Binary64 model of `int((downloaded_files / total_files) * 100)` -/

/-- Fuel-driven bit length helper; `bitLenAux f n` is the bit length of `n`
provided `n ≤ f`. -/
def bitLenAux : ℕ → ℕ → ℕ
  | 0, _ => 0
  | f + 1, n => if n = 0 then 0 else bitLenAux f (n / 2) + 1

/-- Number of binary digits of `n` (0 for 0). -/
def bitLen (n : ℕ) : ℕ := bitLenAux n n

/-- Round `a / b` to the nearest natural number, ties to even
(IEEE-754 default rounding, in integer arithmetic). -/
def rne (a b : ℕ) : ℕ :=
  if 2 * (a % b) < b then a / b
  else if b < 2 * (a % b) then a / b + 1
  else if a / b % 2 = 0 then a / b else a / b + 1

/-- Decides `2 ^ e ≤ d / t` (as rationals) in integer arithmetic. -/
def p2le (e : ℤ) (d t : ℕ) : Bool :=
  if 0 ≤ e then t * 2 ^ e.toNat ≤ d else t ≤ d * 2 ^ (-e).toNat

/-- Binade exponent of `d / t` for `d t ≠ 0`: the unique `e` with
`2 ^ e ≤ d / t < 2 ^ (e + 1)`. -/
def qexpR (d t : ℕ) : ℤ :=
  if p2le ((bitLen d : ℤ) - (bitLen t : ℤ)) d t then (bitLen d : ℤ) - (bitLen t : ℤ)
  else (bitLen d : ℤ) - (bitLen t : ℤ) - 1

/-- The binary64 value produced by Python's true division `d / t`,
as a mantissa/exponent pair `(m, g)` denoting `m * 2 ^ g`
(correctly rounded to 53 significant bits, round-half-even). -/
def fldiv (d t : ℕ) : ℕ × ℤ :=
  if d = 0 then (0, 0)
  else if 0 ≤ qexpR d t - 52 then (rne d (t * 2 ^ (qexpR d t - 52).toNat), qexpR d t - 52)
  else (rne (d * 2 ^ (-(qexpR d t - 52)).toNat) t, qexpR d t - 52)

/-- The binary64 product of the float `m * 2 ^ g` with the exact constant 100
(correctly rounded to 53 significant bits, round-half-even). -/
def flscale100 (p : ℕ × ℤ) : ℕ × ℤ :=
  if bitLen (p.1 * 100) ≤ 53 then (p.1 * 100, p.2)
  else (rne (p.1 * 100) (2 ^ (bitLen (p.1 * 100) - 53)),
    p.2 + ((bitLen (p.1 * 100) : ℤ) - 53))

/-- Python's `int((d / t) * 100)`, the percentage the worker reports at
`downloaded_files = d`, `total_files = t` (line 169 of the source).
The guard `t = 0` never occurs in the program (the run returns before any
`download_file` call when there are no tasks); it is mapped to 0. -/
def pctFloat (d t : ℕ) : ℕ :=
  if t = 0 then 0
  else if 0 ≤ (flscale100 (fldiv d t)).2 then
    (flscale100 (fldiv d t)).1 * 2 ^ (flscale100 (fldiv d t)).2.toNat
  else (flscale100 (fldiv d t)).1 / 2 ^ (-(flscale100 (fldiv d t)).2).toNat

/-- Rational value of a mantissa/exponent pair. -/
def dyVal (p : ℕ × ℤ) : ℚ := (p.1 : ℚ) * 2 ^ p.2

/-! ### Rational-number specification of the rounding steps -/

/-- Round a rational to the nearest integer, ties to even. -/
def rhe (q : ℚ) : ℤ :=
  if q - ⌊q⌋ < 1 / 2 then ⌊q⌋
  else if 1 / 2 < q - ⌊q⌋ then ⌊q⌋ + 1
  else if ⌊q⌋ % 2 = 0 then ⌊q⌋ else ⌊q⌋ + 1

/-- Round a rational to the nearest multiple of `2 ^ g`, ties to even. -/
def roundAt (g : ℤ) (q : ℚ) : ℚ := (rhe (q / 2 ^ g) : ℚ) * 2 ^ g

/-- One binary64 rounding step on a nonnegative rational: round to 53
significant bits, round-half-even (normal range; the model keeps the
exponent unbounded, which agrees with the actual double for every quantity
the program manipulates). -/
def roundFl (q : ℚ) : ℚ := if 0 < q then roundAt (Int.log 2 q - 52) q else 0

/-! ## Header dictionaries

Python `dict`s with string keys are modelled as association lists with unique
keys; values in the headers dict are either strings or the boolean `True`
(`start_download` stores `True` for the three marker keys). -/

inductive HVal where
  | str (s : String)
  | bool (b : Bool)
deriving DecidableEq

/-- Python `d.get(k)` (`None` encoded as `none`). -/
def pyGet {α : Type} : List (String × α) → String → Option α
  | [], _ => none
  | (k', v) :: rest, k => if k' = k then some v else pyGet rest k

/-- Python `d[k] = v` (updates in place, appends new keys at the end,
matching dict insertion order). -/
def pySet {α : Type} : List (String × α) → String → α → List (String × α)
  | [], k, v => [(k, v)]
  | (k', v') :: rest, k, v =>
    if k' = k then (k, v) :: rest else (k', v') :: pySet rest k v

/-- Python `del d[k]`. -/
def pyDel {α : Type} : List (String × α) → String → List (String × α)
  | [], _ => []
  | (k', v') :: rest, k => if k' = k then rest else (k', v') :: pyDel rest k

/-- Python `d.setdefault(k, v)`. -/
def pySetdefault {α : Type} (l : List (String × α)) (k : String) (v : α) :
    List (String × α) :=
  if (pyGet l k).isSome then l else l ++ [(k, v)]

abbrev Headers := List (String × HVal)

/-- Python truthiness of `d.get(k)`: `None` and `""` are falsy. -/
def truthy : Option HVal → Bool
  | none => false
  | some (.str s) => !(s == "")
  | some (.bool b) => b

/-- The `UA_PRESETS` table (lines 19-44 of the source). -/
def UA_PRESETS : List (String × String) :=
  [("Chrome (Windows 10)",
    "Mozilla/5.0 (Windows NT 10.0; Win64; x64) AppleWebKit/537.36 (KHTML, like Gecko) Chrome/124.0.0.0 Safari/537.36"),
   ("Firefox (Windows 10)",
    "Mozilla/5.0 (Windows NT 10.0; Win64; x64; rv:124.0) Gecko/20100101 Firefox/124.0"),
   ("Edge (Windows 11)",
    "Mozilla/5.0 (Windows NT 10.0; Win64; x64) AppleWebKit/537.36 (KHTML, like Gecko) Chrome/124.0.0.0 Safari/537.36 Edg/124.0.0.0"),
   ("Safari (iPhone iOS 17)",
    "Mozilla/5.0 (iPhone; CPU iPhone OS 17_0 like Mac OS X) AppleWebKit/605.1.15 (KHTML, like Gecko) Version/17.0 Mobile/15E148 Safari/604.1"),
   ("Safari (macOS 14)",
    "Mozilla/5.0 (Macintosh; Intel Mac OS X 14_0) AppleWebKit/605.1.15 (KHTML, like Gecko) Version/17.0 Safari/605.1.15"),
   ("Requests default", "python-requests/2.x"),
   ("Custom…", "")]

/-- `UA_PRESETS.get(ua_choice, "")` (line 289). -/
def uaLookup (k : String) : String :=
  match UA_PRESETS.find? (fun p => p.1 == k) with
  | some p => p.2
  | none => ""

/-- Header construction in `ImageDownloaderApp.start_download` (lines
290-304), given the already-resolved `user_agent` value. -/
def buildCore (ua refererText : String) (dynRef identity connClose : Bool) : Headers :=
  let h1 : Headers :=
    if ua ≠ "" ∧ ua ≠ "python-requests/2.x" then pySet [] "User-Agent" (.str ua) else []
  let h2 :=
    if refererText ≠ "" then pySet h1 "Referer" (.str refererText)
    else if dynRef then pySet h1 "_dynamic_referer" (.bool true) else h1
  let h3 := if identity then pySet h2 "_identity_encoding" (.bool true) else h2
  if connClose then pySet h3 "_connection_close" (.bool true) else h3

/-- Header construction in `ImageDownloaderApp.start_download` (lines 287-304).
Inputs are the UI fields, already `.strip()`ed (string trimming belongs to the
presentation shell):  the User-Agent combo choice, the custom User-Agent text,
the explicit Referer text, and the three checkboxes. -/
def buildStartHeaders (uaChoice uaCustom refererText : String)
    (dynRef identity connClose : Bool) : Headers :=
  buildCore (if uaChoice = "Custom…" then uaCustom else uaLookup uaChoice)
    refererText dynRef identity connClose

/-- Marker consumption for `Accept-Encoding` in `DownloadWorker.__init__`
(lines 82-84). -/
def initIdentity (hs : Headers) : Headers :=
  if truthy (pyGet hs "_identity_encoding") then
    pyDel (pySet hs "Accept-Encoding" (.str "identity")) "_identity_encoding"
  else hs

/-- Marker consumption for `Connection` in `DownloadWorker.__init__`
(lines 87-89). -/
def initConnClose (hs : Headers) : Headers :=
  if truthy (pyGet hs "_connection_close") then
    pyDel (pySet hs "Connection" (.str "close")) "_connection_close"
  else hs

/-- The headers held by the worker after `DownloadWorker.__init__`
(lines 61 and 82-95): marker handling for identity encoding and
connection-close, then the default `Accept`. -/
def workerInit (hs : Headers) : Headers :=
  pySetdefault (initConnClose (initIdentity hs)) "Accept"
    (.str "image/avif,image/webp,image/apng,image/*,*/*;q=0.8")

/-- Splits a URL at the first occurrence of `://`, returning the prefix
including the separator and the remainder. -/
def splitAfterScheme : List Char → Option (List Char × List Char)
  | [] => none
  | c :: rest =>
    if c = ':' ∧ rest.take 2 = ['/', '/'] then some ([c, '/', '/'], rest.drop 2)
    else match splitAfterScheme rest with
      | some (p, r) => some (c :: p, r)
      | none => none

/-- `"/".flatten(path.split("/")[:-1]) + "/"`: everything up to and including
the last `/` of the path, or `/` when the path has none (line 146). -/
def dropLastSegment (path : List Char) : List Char :=
  match path.reverse.dropWhile (fun c => c ≠ '/') with
  | [] => ['/']
  | r => r.reverse

/-- The dynamic `Referer` computed in `download_file` (lines 143-148):
`urlsplit` the URL, keep scheme and netloc, replace the path by its
directory.  Modelled for URLs of the shape `scheme://netloc/path` without
query or fragment, which is the shape of every URL this program builds
(scheme case-normalization is not modelled). -/
def refererOf (url : String) : String :=
  match splitAfterScheme url.data with
  | some (pre, rest) =>
    ⟨pre ++ rest.takeWhile (fun c => c ≠ '/') ++
      dropLastSegment (rest.dropWhile (fun c => c ≠ '/'))⟩
  | none => ⟨dropLastSegment url.data⟩

/-- The per-request header dict built at the start of `download_file`
(lines 139-151): a copy of the worker's headers, with the dynamic-referer
marker translated into a concrete `Referer` and removed. -/
def reqHeadersFor (hs : Headers) (remote_url : String) : Headers :=
  if truthy (pyGet hs "_dynamic_referer") then
    pyDel (pySet hs "Referer" (.str (refererOf remote_url))) "_dynamic_referer"
  else hs

/-! ## Events, environments, and the `download_file` unit

The three Qt signals become an event trace.  Each `log.emit(f"...")` call is
modelled by the constructor carrying exactly the values interpolated into the
corresponding f-string; `status_update.emit(tid, "red"/"green")` becomes
`slotStatus tid true/false`. -/

inductive LogMsg where
  | downloaded (local_path : String)                    -- "✅ Downloaded: {local_path}"
  | httpFailed (remote_url : String) (status : ℕ)       -- "❌ Failed: {remote_url} (HTTP {r.status_code})"
  | transportFailed (remote_url : String) (detail : String) -- "⚠️ Error downloading {remote_url}: {e}"
  | unhandledError (detail : String)                    -- "⚠️ Unhandled worker error: {e}"
  | noFiles                                             -- "No image files found to download."
deriving DecidableEq

inductive Event where
  | progress (pct : ℕ)
  | log (m : LogMsg)
  | slotStatus (tid : ℕ) (busy : Bool)
deriving DecidableEq

/-- How the local disk behaves while the 200-response body is streamed to
`open(local_path, "wb")` (lines 162-165). -/
inductive BodyBehavior where
  | ok
  /-- `open(local_path, "wb")` raises an `OSError`; no file is created. -/
  | openError (detail : String)
  /-- `f.write` raises an `OSError` after `k` chunks were written; the file
  holds the partial content (`open("wb")` truncated it first). -/
  | writeError (k : ℕ) (detail : String)
  /-- `r.iter_content` raises a `requests` exception (connection reset,
  read timeout, chunked-encoding error - all `RequestException` subclasses)
  after `k` chunks were written. -/
  | readError (k : ℕ) (detail : String)
deriving DecidableEq

/-- How `self.session.get(...)` behaves for one task (line 153), after the
transport adapter has already performed its internal retries. -/
inductive NetBehavior where
  /-- A response arrives: final status code and body chunks as
  `iter_content` would yield them. -/
  | resp (status : ℕ) (chunks : List (List ℕ))
  /-- `session.get` raises a `requests.exceptions.RequestException`
  (retries exhausted, DNS failure, connect timeout, ...). -/
  | transportError (detail : String)
  /-- `session.get` raises an exception that is not a `RequestException`. -/
  | raiseOther (detail : String)
deriving DecidableEq

structure TaskEnv where
  net : NetBehavior
  body : BodyBehavior
deriving DecidableEq

/-- Summary of one `download_file` call. -/
structure UnitResult where
  /-- Signals emitted by the unit, in order. -/
  events : List Event
  /-- Content written to `local_path` (`none`: the file was never opened). -/
  written : Option (List ℕ)
  /-- Whether `downloaded_files` was incremented. -/
  succeeded : Bool
  /-- Exception escaping `download_file`, caught by the pool loop
  (lines 111-115). -/
  exc : Option String
  /-- The per-request headers passed to `session.get`. -/
  sent : Headers
deriving DecidableEq

/-- The body chunks actually written: `if chunk: f.write(chunk)` skips empty
chunks (line 164); `k` chunks succeed before the failure, if any. -/
def chunksWritten (chunks : List (List ℕ)) (k : ℕ) : List ℕ :=
  ((chunks.filter (fun c => !c.isEmpty)).take k).flatten

/-- The full streamed body as written to disk. -/
def fullContent (chunks : List (List ℕ)) : List ℕ :=
  (chunks.filter (fun c => !c.isEmpty)).flatten

/-- One `DownloadWorker.download_file` call (lines 130-179).
`total` is `self.total_files`; `prev` is the value of
`self.downloaded_files` when this unit acquires the lock (its successful
predecessor count).  Every path emits `slotStatus tid true` first and
`slotStatus tid false` last: the busy signal precedes `makedirs` and the
network call, and the idle signal sits in the `finally` block, which runs on
success, on HTTP failure, on caught transport errors, and on escaping
exceptions alike. -/
def download_file (hs : Headers) (total prev : ℕ) (local_path remote_url : String)
    (tid : ℕ) (env : TaskEnv) : UnitResult :=
  match env.net with
  | .raiseOther d =>
    { events := [.slotStatus tid true, .slotStatus tid false]
      written := none
      succeeded := false
      exc := some d
      sent := reqHeadersFor hs remote_url }
  | .transportError d =>
    { events := [.slotStatus tid true, .log (.transportFailed remote_url d),
        .slotStatus tid false]
      written := none
      succeeded := false
      exc := none
      sent := reqHeadersFor hs remote_url }
  | .resp status chunks =>
    if status = 200 then
      match env.body with
      | .ok =>
        { events := [.slotStatus tid true, .progress (pctFloat (prev + 1) total),
            .log (.downloaded local_path), .slotStatus tid false]
          written := some (fullContent chunks)
          succeeded := true
          exc := none
          sent := reqHeadersFor hs remote_url }
      | .openError d =>
        { events := [.slotStatus tid true, .slotStatus tid false]
          written := none
          succeeded := false
          exc := some d
          sent := reqHeadersFor hs remote_url }
      | .writeError k d =>
        { events := [.slotStatus tid true, .slotStatus tid false]
          written := some (chunksWritten chunks k)
          succeeded := false
          exc := some d
          sent := reqHeadersFor hs remote_url }
      | .readError k d =>
        { events := [.slotStatus tid true, .log (.transportFailed remote_url d),
            .slotStatus tid false]
          written := some (chunksWritten chunks k)
          succeeded := false
          exc := none
          sent := reqHeadersFor hs remote_url }
    else
      { events := [.slotStatus tid true, .log (.httpFailed remote_url status),
          .slotStatus tid false]
        written := none
        succeeded := false
        exc := none
        sent := reqHeadersFor hs remote_url }

/-- The events the pool contributes for one unit: the unit's own events,
followed by the `⚠️ Unhandled worker error` log when `future.result()`
re-raises (lines 111-115). -/
def poolEvents (u : UnitResult) : List Event :=
  u.events ++ (match u.exc with
    | some d => [.log (.unhandledError d)]
    | none => [])

/-! ## The local file system -/

/-- `os.path.dirname` for `/`-separated paths: everything before the last
`/`, with trailing slashes stripped unless the head is all slashes. -/
def dirname (p : String) : String :=
  match p.data.reverse.dropWhile (fun c => c ≠ '/') with
  | [] => ""
  | r =>
    if r.all (fun c => c = '/') then ⟨r.reverse⟩
    else ⟨(r.dropWhile (fun c => c = '/')).reverse⟩

/-- Helper for `mkdirsSet`: the proper `/`-prefixes of a path. -/
def mkdirsAux : List Char → List Char → List (List Char)
  | [], _ => []
  | c :: rest, acc =>
    if c = '/' ∧ acc ≠ [] then acc.reverse :: mkdirsAux rest (c :: acc)
    else mkdirsAux rest (c :: acc)

/-- The set of directories `os.makedirs(d, exist_ok=True)` guarantees to
exist afterwards: every `/`-prefix of `d` and `d` itself (line 135).
`d = ""` cannot occur for a walked file path and is mapped to no-op. -/
def mkdirsSet (d : String) : List String :=
  if d = "" then [] else (mkdirsAux d.data []).map (fun cs => ⟨cs⟩) ++ [d]

structure FS where
  files : List (String × List ℕ)
  dirs : List String
deriving DecidableEq

def unionDirs (ds new : List String) : List String :=
  ds ++ new.filter (fun d => !(ds.contains d))

/-- The file-system effect of one `download_file` call: the directories are
created before the request (line 135, unconditional), the file content is
written only when the unit opened the file. -/
def applyUnit (fs : FS) (local_path : String) (u : UnitResult) : FS :=
  match u.written with
  | some c =>
    { files := pySet fs.files local_path c
      dirs := unionDirs fs.dirs (mkdirsSet (dirname local_path)) }
  | none => { fs with dirs := unionDirs fs.dirs (mkdirsSet (dirname local_path)) }

def fsRead (fs : FS) (p : String) : Option (List ℕ) := pyGet fs.files p

/-! ## The worker run -/

/-- Environment classification: the unit increments `downloaded_files`. -/
def envSucceeds (env : TaskEnv) : Bool :=
  match env.net, env.body with
  | .resp status _, .ok => status == 200
  | _, _ => false

/-- The unit logs `❌ Failed: ... (HTTP ...)`. -/
def envHttpFails (env : TaskEnv) : Bool :=
  match env.net with
  | .resp status _ => !(status == 200)
  | _ => false

/-- The unit lets an exception escape to the pool boundary. -/
def envEscapes (env : TaskEnv) : Bool :=
  match env.net, env.body with
  | .raiseOther _, _ => true
  | .resp status _, .openError _ => status == 200
  | .resp status _, .writeError _ _ => status == 200
  | _, _ => false

/-- The unit logs `⚠️ Error downloading ...` (a caught `RequestException`). -/
def envTransportLogs (env : TaskEnv) : Bool :=
  match env.net, env.body with
  | .transportError _, _ => true
  | .resp status _, .readError _ _ => status == 200
  | _, _ => false

def countSuccesses (tasks : List ((String × String) × TaskEnv)) : ℕ :=
  tasks.countP (fun x => envSucceeds x.2)

/-- All events one task contributes to the run: its unit events and the
pool-boundary error log, if any. -/
def unitTrace (hs : Headers) (total prev : ℕ) (lp ru : String) (tid : ℕ)
    (env : TaskEnv) : List Event :=
  poolEvents (download_file hs total prev lp ru tid env)

/-- Per-task traces for a rank assignment: task `i` gets slot `i % N`
(`executor.submit(self.download_file, file_info, i % self.num_threads)`,
line 108) and sees `ranks i` earlier successes when it takes the lock. -/
def rankedTraces (hs : Headers) (N total : ℕ) (ranks : ℕ → ℕ) :
    ℕ → List ((String × String) × TaskEnv) → List (List Event)
  | _, [] => []
  | i, ((lp, ru), env) :: rest =>
    unitTrace hs total (ranks i) lp ru (i % N) env ::
      rankedTraces hs N total ranks (i + 1) rest

/-- Sequential execution of the dispatched tasks: one concrete schedule of
the pool, threading `downloaded_files` and the file system. -/
def runSeqAux (hs : Headers) (N total : ℕ) :
    ℕ → ℕ → FS → List ((String × String) × TaskEnv) → List Event × FS × ℕ
  | _, count, fs, [] => ([], fs, count)
  | i, count, fs, ((lp, ru), env) :: rest =>
    (poolEvents (download_file hs total count lp ru (i % N) env) ++
      (runSeqAux hs N total (i + 1)
        (if (download_file hs total count lp ru (i % N) env).succeeded then count + 1
         else count)
        (applyUnit fs lp (download_file hs total count lp ru (i % N) env)) rest).1,
     (runSeqAux hs N total (i + 1)
        (if (download_file hs total count lp ru (i % N) env).succeeded then count + 1
         else count)
        (applyUnit fs lp (download_file hs total count lp ru (i % N) env)) rest).2)

/-- A worker run configuration: the initialized headers, the slot count, and
the enumerated tasks with their environments. -/
structure RunConfig where
  headers : Headers
  num_threads : ℕ
  tasks : List ((String × String) × TaskEnv)

/-- `DownloadWorker.run` (lines 97-115) under the sequential schedule:
an empty task list logs `No image files found to download.` and emits
progress 100; otherwise all tasks are dispatched. -/
def runWorker (cfg : RunConfig) (fs : FS) : List Event × FS × ℕ :=
  if cfg.tasks = [] then ([.log .noFiles, .progress 100], fs, 0)
  else runSeqAux cfg.headers cfg.num_threads cfg.tasks.length 0 0 fs cfg.tasks

/-! ## Interleaved schedules

A trace of the concurrent pool is an interleaving of the per-task traces in
which the lock-protected progress emissions appear in increment order.  The
`Interleaves` relation is the standard merge of several sequences, each kept
in order. -/

inductive Interleaves {α : Type} : List (List α) → List α → Prop where
  | nil (ls : List (List α)) (h : ∀ l ∈ ls, l = []) : Interleaves ls []
  | cons (ls : List (List α)) (i : ℕ) (x : α) (l : List α) (t : List α)
      (hi : ls[i]? = some (x :: l)) (htail : Interleaves (ls.set i l) t) :
      Interleaves ls (x :: t)

def progressOf : Event → Option ℕ
  | .progress p => some p
  | _ => none

/-- The progress percentages reported over a trace, in order. -/
def progressValues (tr : List Event) : List ℕ := tr.filterMap progressOf

/-- The progress values of a run in which exactly `s` of `total` tasks
succeed: the `j`-th lock holder computes `int(((j) / total) * 100)`. -/
def canonicalProgress (s total : ℕ) : List ℕ :=
  (List.range s).map (fun j => pctFloat (j + 1) total)

/-- All traces the concurrent pool can produce for a configuration: the
empty run's fixed two events, or an interleaving of the per-task traces in
which the successful lock sections report `pctFloat 1, pctFloat 2, ...` in
order (the increment and the emission share one critical section). -/
def ValidRun (cfg : RunConfig) (trace : List Event) : Prop :=
  (cfg.tasks = [] ∧ trace = [.log .noFiles, .progress 100]) ∨
  (cfg.tasks ≠ [] ∧ ∃ ranks : ℕ → ℕ,
    Interleaves
      (rankedTraces cfg.headers cfg.num_threads cfg.tasks.length ranks 0 cfg.tasks) trace ∧
    progressValues trace = canonicalProgress (countSuccesses cfg.tasks) cfg.tasks.length)

/-! ### Event classifiers -/

def isProgressEv : Event → Bool
  | .progress _ => true
  | _ => false

def isIdleOf (k : ℕ) : Event → Bool
  | .slotStatus t b => t == k && b == false
  | _ => false

def isBusyOf (k : ℕ) : Event → Bool
  | .slotStatus t b => t == k && b == true
  | _ => false

def isIdleEv : Event → Bool
  | .slotStatus _ false => true
  | _ => false

def isUnhandledEv : Event → Bool
  | .log (.unhandledError _) => true
  | _ => false

def isHttpFailedEv : Event → Bool
  | .log (.httpFailed _ _) => true
  | _ => false

def isDownloadedEv : Event → Bool
  | .log (.downloaded _) => true
  | _ => false

def isTransportEv : Event → Bool
  | .log (.transportFailed _ _) => true
  | _ => false

/-- How many of the task indices `i, i+1, ..., i+len-1` map to slot `k`
under round-robin assignment mod `N`. -/
def assignedCount (N k : ℕ) : ℕ → ℕ → ℕ
  | _, 0 => 0
  | i, len + 1 => (if i % N = k then 1 else 0) + assignedCount N k (i + 1) len

/-- What a unit writes to its local path, as a function of the environment
alone. -/
def envWritten (env : TaskEnv) : Option (List ℕ) :=
  match env.net, env.body with
  | .resp status chunks, .ok => if status = 200 then some (fullContent chunks) else none
  | .resp status chunks, .writeError k _ =>
    if status = 200 then some (chunksWritten chunks k) else none
  | .resp status chunks, .readError k _ =>
    if status = 200 then some (chunksWritten chunks k) else none
  | .resp _ _, .openError _ => none
  | .transportError _, _ => none
  | .raiseOther _, _ => none

/-! ## PathMapper: `get_files_to_download` (lines 117-128)

`os.walk` is modelled over an explicit directory tree; a file is identified
by its component path below the local root.  The host path separator is a
parameter (`/` on POSIX, `\` on Windows), so the `.replace("\\", "/")`
normalization of line 125 is part of the model. -/

/-- `ALLOWED_EXTENSIONS` (line 16). -/
def ALLOWED_EXTENSIONS : List String :=
  [".jpg", ".jpeg", ".png", ".gif", ".webp", ".bmp", ".tiff", ".svg"]

def asciiLower (c : Char) : Char :=
  if 'A' ≤ c ∧ c ≤ 'Z' then Char.ofNat (c.toNat + 32) else c

/-- Python `str.lower()` for the ASCII range (extensions are ASCII). -/
def lowerStr (s : String) : String := ⟨s.data.map asciiLower⟩

/-- `os.path.splitext(name)[1]` for a basename: the suffix from the last
dot, unless every character before that dot is itself a dot (CPython skips
leading dots, so `.bashrc` has no extension). -/
def extOf (name : List Char) : List Char :=
  if (name.reverse.takeWhile (fun c => c ≠ '.')).length = name.length then []
  else
    if (name.take (name.length - (name.reverse.takeWhile (fun c => c ≠ '.')).length - 1)).any
        (fun c => c ≠ '.') then
      name.drop (name.length - (name.reverse.takeWhile (fun c => c ≠ '.')).length - 1)
    else []

/-- Join path components with a separator character. -/
def joinSepParts (sep : Char) : List String → String
  | [] => ""
  | [x] => x
  | x :: rest => x ++ (⟨[sep]⟩ : String) ++ joinSepParts sep rest

/-- `.replace("\\", "/")` (line 125). -/
def replaceBackslashes (s : String) : String :=
  ⟨s.data.map (fun c => if c = '\\' then '/' else c)⟩

/-- `remote_root.rstrip("/")` (line 55). -/
def rstripSlashes (s : String) : String :=
  ⟨(s.data.reverse.dropWhile (fun c => c = '/')).reverse⟩

/-- `get_files_to_download` (lines 117-128), with `remote_root` already
stripped by `__init__`.  `walked` is the `os.walk` enumeration of the local
root: for each regular file, its directory components below the root (in
traversal order) and its basename.  For each walked file whose lowercased
extension is allowed, the pair of the local path (root joined with the
components by the host separator `sep`) and
`f"{self.remote_root}/{relative_path}"` is produced, where the relative
path is the components joined by `sep` with `"\\"` replaced by `"/"`
(line 125). -/
def get_files_to_download (sep : Char) (local_root remote_root_stripped : String)
    (walked : List (List String × String)) : List (String × String) :=
  walked.filterMap (fun pf =>
    if ALLOWED_EXTENSIONS.contains (lowerStr ⟨extOf pf.2.data⟩) then
      some (local_root ++ (⟨[sep]⟩ : String) ++ joinSepParts sep (pf.1 ++ [pf.2]),
        remote_root_stripped ++ "/" ++
          replaceBackslashes (joinSepParts sep (pf.1 ++ [pf.2])))
    else none)

/-- The whole derivation as the worker sees it: `__init__` strips the
trailing slashes of the remote root (line 55), then the files are
enumerated. -/
def filesToDownload (sep : Char) (local_root remote_root : String)
    (walked : List (List String × String)) : List (String × String) :=
  get_files_to_download sep local_root (rstripSlashes remote_root) walked

/-- An example file system and a small two-task run (one success, one 404),
used to instantiate the universally quantified claims. -/
def exFS : FS := ⟨[], []⟩

def exCfg : RunConfig :=
  ⟨[], 5,
    [(("/t/a.jpg", "http://h/a.jpg"), ⟨.resp 200 [[1]], .ok⟩),
     (("/t/b.jpg", "http://h/b.jpg"), ⟨.resp 404 [], .ok⟩)]⟩

/-- A 50-task run in which the first 29 tasks succeed and the remaining 21
answer HTTP 404: the smallest shape on which the float percentage visibly
disagrees with the rational floor (`int(0.58 * 100) = 57` in Python). -/
def ex50Cfg : RunConfig :=
  ⟨[], 5,
    (List.range 50).map (fun i =>
      (("/t/f.jpg", "http://h/f.jpg"),
        if i < 29 then (⟨.resp 200 [[0]], .ok⟩ : TaskEnv) else ⟨.resp 404 [], .ok⟩))⟩

/-- The header mapping held by the worker (the constructed request policy)
for a given UI configuration: `start_download` builds the dict, the
`DownloadWorker` constructor consumes the markers it knows about. -/
def policyHeaders (uaChoice uaCustom refererText : String)
    (dynRef identity connClose : Bool) : Headers :=
  workerInit (buildStartHeaders uaChoice uaCustom refererText dynRef identity connClose)

/-- An example walk: two root files (one filtered out by extension) and one
file in a subdirectory with an uppercase extension. -/
def exWalk : List (List String × String) :=
  [([], "cat.jpg"), ([], "notes.txt"), (["sub"], "b.PNG")]

/-- One task whose 200-response body fails mid-stream after one chunk was
written, over a file system that already holds different bytes at the
task's path. -/
def c7Cfg : RunConfig :=
  ⟨[], 5, [(("/t/f.jpg", "http://h/f.jpg"),
    ⟨.resp 200 [[9]], .readError 1 "connection reset"⟩)]⟩

def c7FS : FS := ⟨[("/t/f.jpg", [1, 2, 3])], []⟩

/-- A run with one success, one non-`RequestException` raised inside
`session.get`, and one disk write error after a 200 response. -/
def c8Cfg : RunConfig :=
  ⟨[], 2,
    [(("/t/a.jpg", "u1"), ⟨.resp 200 [[1]], .ok⟩),
     (("/t/b.jpg", "u2"), ⟨.raiseOther "boom", .ok⟩),
     (("/t/c.jpg", "u3"), ⟨.resp 200 [[2]], .writeError 0 "disk full"⟩)]⟩

/-! ## Theorems -/

theorem rhe_floor_le (q : ℚ) : ⌊q⌋ ≤ rhe q := by
  unfold rhe; split_ifs <;> omega

theorem rhe_le_floor_add_one (q : ℚ) : rhe q ≤ ⌊q⌋ + 1 := by
  unfold rhe; split_ifs <;> omega

theorem rhe_intCast (n : ℤ) : rhe (n : ℚ) = n := by
  unfold rhe
  rw [Int.floor_intCast]
  have h : (n : ℚ) - n = 0 := by ring
  rw [h]
  norm_num

theorem rhe_mono : Monotone rhe := by
  intro u v huv
  have hf : ⌊u⌋ ≤ ⌊v⌋ := Int.floor_le_floor huv
  rcases lt_or_eq_of_le hf with hlt | heq
  · calc rhe u ≤ ⌊u⌋ + 1 := rhe_le_floor_add_one u
    _ ≤ ⌊v⌋ := by omega
    _ ≤ rhe v := rhe_floor_le v
  · have hfr : u - ⌊u⌋ ≤ v - ⌊v⌋ := by
      rw [← heq]; exact sub_le_sub_right huv _
    unfold rhe
    rw [← heq]
    split_ifs <;> first | omega | linarith [hfr]

theorem rhe_nonneg {q : ℚ} (hq : 0 ≤ q) : 0 ≤ rhe q := by
  have := rhe_floor_le q
  have : (0 : ℤ) ≤ ⌊q⌋ := Int.floor_nonneg.mpr hq
  omega

theorem roundAt_mono (g : ℤ) : Monotone (roundAt g) := by
  intro u v huv
  unfold roundAt
  have hp : (0 : ℚ) < 2 ^ g := zpow_pos (by norm_num) g
  have h1 : u / 2 ^ g ≤ v / 2 ^ g := by
    exact (div_le_div_iff_of_pos_right hp).mpr huv
  have h2 : rhe (u / 2 ^ g) ≤ rhe (v / 2 ^ g) := rhe_mono h1
  have h3 : ((rhe (u / 2 ^ g) : ℤ) : ℚ) ≤ ((rhe (v / 2 ^ g) : ℤ) : ℚ) := by
    exact_mod_cast h2
  exact mul_le_mul_of_nonneg_right h3 (le_of_lt hp)

theorem roundAt_nonneg (g : ℤ) {q : ℚ} (hq : 0 ≤ q) : 0 ≤ roundAt g q := by
  unfold roundAt
  have hp : (0 : ℚ) < 2 ^ g := zpow_pos (by norm_num) g
  have h1 : (0 : ℚ) ≤ q / 2 ^ g := div_nonneg hq (le_of_lt hp)
  have h2 : (0 : ℤ) ≤ rhe (q / 2 ^ g) := rhe_nonneg h1
  have h3 : (0 : ℚ) ≤ (rhe (q / 2 ^ g) : ℚ) := by exact_mod_cast h2
  exact mul_nonneg h3 (le_of_lt hp)

theorem roundAt_dyadic (g : ℤ) (m : ℤ) : roundAt g ((m : ℚ) * 2 ^ g) = (m : ℚ) * 2 ^ g := by
  unfold roundAt
  have hp : (2 : ℚ) ^ g ≠ 0 := ne_of_gt (zpow_pos (by norm_num) g)
  rw [mul_div_assoc, div_self hp, mul_one, rhe_intCast]

theorem roundFl_nonneg (q : ℚ) : 0 ≤ roundFl q := by
  unfold roundFl
  split_ifs with h
  · exact roundAt_nonneg _ (le_of_lt h)
  · exact le_refl 0

theorem zpow_two_mono {a b : ℤ} (h : a ≤ b) : (2 : ℚ) ^ a ≤ (2 : ℚ) ^ b :=
  zpow_le_zpow_right₀ (by norm_num) h

/-- A power of two at least as fine as the grid is a fixed point of `roundAt`. -/
theorem roundAt_two_zpow {g e : ℤ} (h : g ≤ e) : roundAt g ((2 : ℚ) ^ e) = (2 : ℚ) ^ e := by
  have key : ((((2 : ℤ) ^ (e - g).toNat) : ℤ) : ℚ) * (2 : ℚ) ^ g = (2 : ℚ) ^ e := by
    push_cast
    rw [← zpow_natCast (2 : ℚ) (e - g).toNat, Int.toNat_of_nonneg (by omega),
      ← zpow_add₀ (by norm_num : (2 : ℚ) ≠ 0)]
    congr 1
    omega
  rw [← key, roundAt_dyadic]

theorem roundFl_mono : Monotone roundFl := by
  intro u v huv
  unfold roundFl
  split_ifs with hu hv hv
  · -- both positive
    have hlog : Int.log 2 u ≤ Int.log 2 v := Int.log_mono_right hu huv
    rcases lt_or_eq_of_le hlog with hlt | heq
    · -- u and v live in different binades
      have h1 : roundAt (Int.log 2 u - 52) u ≤ (2 : ℚ) ^ (Int.log 2 u + 1) := by
        have hub : u ≤ (2 : ℚ) ^ (Int.log 2 u + 1) := by
          have := Int.lt_zpow_succ_log_self (by norm_num : 1 < 2) u
          have hc : ((2 : ℕ) : ℚ) = (2 : ℚ) := by norm_num
          rw [hc] at this
          exact le_of_lt this
        calc roundAt (Int.log 2 u - 52) u
            ≤ roundAt (Int.log 2 u - 52) ((2 : ℚ) ^ (Int.log 2 u + 1)) := roundAt_mono _ hub
          _ = (2 : ℚ) ^ (Int.log 2 u + 1) := roundAt_two_zpow (by omega)
      have h2 : (2 : ℚ) ^ (Int.log 2 u + 1) ≤ (2 : ℚ) ^ (Int.log 2 v) := zpow_two_mono (by omega)
      have h3 : (2 : ℚ) ^ (Int.log 2 v) ≤ roundAt (Int.log 2 v - 52) v := by
        have hlb : (2 : ℚ) ^ (Int.log 2 v) ≤ v := by
          have := Int.zpow_log_le_self (by norm_num : 1 < 2) hv
          have hc : ((2 : ℕ) : ℚ) = (2 : ℚ) := by norm_num
          rw [hc] at this
          exact this
        calc (2 : ℚ) ^ (Int.log 2 v)
            = roundAt (Int.log 2 v - 52) ((2 : ℚ) ^ (Int.log 2 v)) :=
              (roundAt_two_zpow (by omega)).symm
          _ ≤ roundAt (Int.log 2 v - 52) v := roundAt_mono _ hlb
      linarith
    · rw [heq]
      exact roundAt_mono _ huv
  · exact absurd (lt_of_lt_of_le hu huv) hv
  · exact roundAt_nonneg _ (le_of_lt hv)
  · exact le_refl 0

theorem bitLenAux_zero (f : ℕ) : bitLenAux f 0 = 0 := by
  cases f <;> simp [bitLenAux]

theorem bitLenAux_spec : ∀ f n : ℕ, n ≤ f → n ≠ 0 →
    2 ^ (bitLenAux f n - 1) ≤ n ∧ n < 2 ^ bitLenAux f n := by
  intro f
  induction f with
  | zero => intro n h hn; omega
  | succ f ih =>
    intro n h hn
    rw [bitLenAux, if_neg hn]
    by_cases h2 : n / 2 = 0
    · have hn1 : n = 1 := by omega
      subst hn1
      rw [h2, bitLenAux_zero]
      norm_num
    · have hle : n / 2 ≤ f := by omega
      obtain ⟨hlo, hhi⟩ := ih (n / 2) hle h2
      have hL : 1 ≤ bitLenAux f (n / 2) := by
        by_contra hc
        have : bitLenAux f (n / 2) = 0 := by omega
        rw [this] at hhi
        omega
      set L := bitLenAux f (n / 2) with hLdef
      have hL1 : L - 1 + 1 = L := by omega
      have hdouble : 2 ^ L = 2 * 2 ^ (L - 1) := by
        conv_lhs => rw [← hL1, pow_succ]
        ring
      have hsplit2 : 2 ^ (L + 1) = 2 * 2 ^ L := by
        rw [pow_succ]; ring
      constructor
      · simp only [Nat.add_sub_cancel]
        rw [hdouble]
        omega
      · rw [hsplit2]
        omega

theorem bitLen_spec (n : ℕ) (hn : n ≠ 0) : 2 ^ (bitLen n - 1) ≤ n ∧ n < 2 ^ bitLen n :=
  bitLenAux_spec n n le_rfl hn

theorem bitLen_pos (n : ℕ) (hn : n ≠ 0) : 1 ≤ bitLen n := by
  obtain ⟨_, hhi⟩ := bitLen_spec n hn
  by_contra hc
  have : bitLen n = 0 := by omega
  rw [this] at hhi
  omega

theorem floor_nat_div (a b : ℕ) (hb : b ≠ 0) : ⌊(a : ℚ) / b⌋ = ((a / b : ℕ) : ℤ) := by
  have hbp : (0 : ℚ) < b := by exact_mod_cast Nat.pos_of_ne_zero hb
  rw [Int.floor_eq_iff]
  constructor
  · rw [Int.cast_natCast, le_div_iff₀ hbp]
    exact_mod_cast Nat.div_mul_le_self a b
  · rw [Int.cast_natCast, div_lt_iff₀ hbp]
    have h1 := Nat.div_add_mod a b
    have h2 := Nat.mod_lt a (Nat.pos_of_ne_zero hb)
    have : a < (a / b + 1) * b := by
      calc a = b * (a / b) + a % b := h1.symm
        _ < b * (a / b) + b := by omega
        _ = (a / b + 1) * b := by ring
    exact_mod_cast this

theorem rne_eq_rhe (a b : ℕ) (hb : b ≠ 0) : (rne a b : ℤ) = rhe ((a : ℚ) / b) := by
  have hbp : (0 : ℚ) < b := by exact_mod_cast Nat.pos_of_ne_zero hb
  have hfl : ⌊(a : ℚ) / b⌋ = ((a / b : ℕ) : ℤ) := floor_nat_div a b hb
  have ha : (a : ℚ) = (b : ℚ) * (a / b : ℕ) + (a % b : ℕ) := by
    exact_mod_cast congrArg (Nat.cast : ℕ → ℚ) (Nat.div_add_mod a b).symm
  have hb' : (b : ℚ) ≠ 0 := ne_of_gt hbp
  have hfrac : (a : ℚ) / b - ((a / b : ℕ) : ℚ) = ((a % b : ℕ) : ℚ) / b := by
    field_simp
    linarith [ha]
  have hv : (a : ℚ) / b - (⌊(a : ℚ) / b⌋ : ℚ) = ((a % b : ℕ) : ℚ) / b := by
    rw [hfl]
    push_cast
    push_cast at hfrac
    exact hfrac
  have e1 : ((a % b : ℕ) : ℚ) / b < 1 / 2 ↔ 2 * (a % b) < b := by
    rw [div_lt_div_iff₀ hbp (by norm_num : (0 : ℚ) < 2), one_mul]
    constructor
    · intro h
      have h2 : a % b * 2 < b := by exact_mod_cast h
      omega
    · intro h
      have h2 : a % b * 2 < b := by omega
      exact_mod_cast h2
  have e2 : 1 / 2 < ((a % b : ℕ) : ℚ) / b ↔ b < 2 * (a % b) := by
    rw [div_lt_div_iff₀ (by norm_num : (0 : ℚ) < 2) hbp, one_mul]
    constructor
    · intro h
      have h2 : b < a % b * 2 := by exact_mod_cast h
      omega
    · intro h
      have h2 : b < a % b * 2 := by omega
      exact_mod_cast h2
  have e3 : ((a / b : ℕ) : ℤ) % 2 = 0 ↔ a / b % 2 = 0 := by omega
  unfold rhe rne
  rw [hv, hfl]
  simp only [e1, e2, e3]
  split_ifs <;> push_cast <;> ring

theorem p2le_iff (e : ℤ) {d t : ℕ} (ht : t ≠ 0) :
    (p2le e d t = true) ↔ (2 : ℚ) ^ e ≤ (d : ℚ) / t := by
  have htp : (0 : ℚ) < t := by exact_mod_cast Nat.pos_of_ne_zero ht
  unfold p2le
  by_cases he : 0 ≤ e
  · rw [if_pos he, decide_eq_true_eq, le_div_iff₀ htp]
    have h2 : (2 : ℚ) ^ e * (t : ℚ) = ((2 ^ e.toNat * t : ℕ) : ℚ) := by
      push_cast
      rw [← zpow_natCast (2 : ℚ) e.toNat, Int.toNat_of_nonneg he]
    rw [h2, Nat.cast_le, Nat.mul_comm (2 ^ e.toNat) t]
  · rw [if_neg he, decide_eq_true_eq]
    set N := (-e).toNat with hN
    have heN : e = -(N : ℤ) := by omega
    have h2 : (2 : ℚ) ^ e = (((2 ^ N : ℕ) : ℚ))⁻¹ := by
      rw [heN, zpow_neg]
      congr 1
      push_cast
      rw [← zpow_natCast (2 : ℚ) N]
    have hPN : (0 : ℚ) < ((2 ^ N : ℕ) : ℚ) := by
      exact_mod_cast Nat.pos_pow_of_pos N (by norm_num)
    rw [h2, inv_eq_one_div, div_le_div_iff₀ hPN htp, one_mul,
      show (d : ℚ) * ((2 ^ N : ℕ) : ℚ) = ((d * 2 ^ N : ℕ) : ℚ) by push_cast; ring,
      Nat.cast_le]

/-- Uniqueness of the binade: a sandwiched exponent is the `Int.log`. -/
theorem log_eq_of {q : ℚ} {e : ℤ} (hq : 0 < q) (h1 : (2 : ℚ) ^ e ≤ q)
    (h2 : q < (2 : ℚ) ^ (e + 1)) : Int.log 2 q = e := by
  have hc : ((2 : ℕ) : ℚ) = (2 : ℚ) := by norm_num
  have hle : e ≤ Int.log 2 q := by
    rw [← Int.zpow_le_iff_le_log (by norm_num : 1 < 2) hq, hc]
    exact h1
  have hlt : Int.log 2 q ≤ e := by
    by_contra hcon
    push_neg at hcon
    have h3 : e + 1 ≤ Int.log 2 q := by omega
    have h4 : ((2 : ℕ) : ℚ) ^ (e + 1) ≤ q :=
      (Int.zpow_le_iff_le_log (by norm_num : 1 < 2) hq).mpr h3
    rw [hc] at h4
    linarith
  omega

theorem q2pow_nat (n : ℕ) : (2 : ℚ) ^ (n : ℤ) = ((2 ^ n : ℕ) : ℚ) := by
  push_cast
  rw [zpow_natCast]

theorem qexpR_spec {d t : ℕ} (hd : d ≠ 0) (ht : t ≠ 0) :
    (2 : ℚ) ^ qexpR d t ≤ (d : ℚ) / t ∧ (d : ℚ) / t < 2 ^ (qexpR d t + 1) := by
  have htp : (0 : ℚ) < t := by exact_mod_cast Nat.pos_of_ne_zero ht
  have hdp : (0 : ℚ) < d := by exact_mod_cast Nat.pos_of_ne_zero hd
  obtain ⟨hdlo, hdhi⟩ := bitLen_spec d hd
  obtain ⟨htlo, hthi⟩ := bitLen_spec t ht
  have hLd := bitLen_pos d hd
  have hLt := bitLen_pos t ht
  set Ld := bitLen d
  set Lt := bitLen t
  set e : ℤ := (Ld : ℤ) - (Lt : ℤ) with hedef
  -- d / t < 2 ^ (e + 1), from d < 2 ^ Ld and 2 ^ (Lt - 1) ≤ t
  have hup : (d : ℚ) / t < 2 ^ (e + 1) := by
    rw [div_lt_iff₀ htp]
    have ht1 : ((2 ^ (Lt - 1) : ℕ) : ℚ) ≤ (t : ℚ) := by exact_mod_cast htlo
    have hd1 : (d : ℚ) < ((2 ^ Ld : ℕ) : ℚ) := by exact_mod_cast hdhi
    have hsplit : (2 : ℚ) ^ (e + 1) * ((2 ^ (Lt - 1) : ℕ) : ℚ) = ((2 ^ Ld : ℕ) : ℚ) := by
      rw [← q2pow_nat (Lt - 1), ← q2pow_nat Ld, ← zpow_add₀ (by norm_num : (2 : ℚ) ≠ 0)]
      congr 1
      omega
    calc (d : ℚ) < ((2 ^ Ld : ℕ) : ℚ) := hd1
      _ = (2 : ℚ) ^ (e + 1) * ((2 ^ (Lt - 1) : ℕ) : ℚ) := hsplit.symm
      _ ≤ (2 : ℚ) ^ (e + 1) * t :=
        mul_le_mul_of_nonneg_left ht1 (le_of_lt (zpow_pos (by norm_num) _))
  -- 2 ^ (e - 1) ≤ d / t, from 2 ^ (Ld - 1) ≤ d and t < 2 ^ Lt
  have hlow : (2 : ℚ) ^ (e - 1) ≤ (d : ℚ) / t := by
    rw [le_div_iff₀ htp]
    have ht1 : (t : ℚ) ≤ ((2 ^ Lt : ℕ) : ℚ) := by exact_mod_cast le_of_lt hthi
    have hd1 : ((2 ^ (Ld - 1) : ℕ) : ℚ) ≤ (d : ℚ) := by exact_mod_cast hdlo
    have hsplit : (2 : ℚ) ^ (e - 1) * ((2 ^ Lt : ℕ) : ℚ) = ((2 ^ (Ld - 1) : ℕ) : ℚ) := by
      rw [← q2pow_nat Lt, ← q2pow_nat (Ld - 1), ← zpow_add₀ (by norm_num : (2 : ℚ) ≠ 0)]
      congr 1
      omega
    calc (2 : ℚ) ^ (e - 1) * t ≤ (2 : ℚ) ^ (e - 1) * ((2 ^ Lt : ℕ) : ℚ) :=
        mul_le_mul_of_nonneg_left ht1 (le_of_lt (zpow_pos (by norm_num) _))
      _ = ((2 ^ (Ld - 1) : ℕ) : ℚ) := hsplit
      _ ≤ (d : ℚ) := hd1
  unfold qexpR
  rw [← hedef]
  by_cases hp : p2le e d t = true
  · rw [if_pos hp]
    exact ⟨(p2le_iff e ht).mp hp, hup⟩
  · rw [if_neg hp]
    have hnot : ¬ (2 : ℚ) ^ e ≤ (d : ℚ) / t := fun hc => hp ((p2le_iff e ht).mpr hc)
    push_neg at hnot
    constructor
    · exact hlow
    · have he1 : e - 1 + 1 = e := by omega
      rw [he1]
      exact hnot

theorem dyVal_mk (m : ℕ) (g : ℤ) : dyVal (m, g) = (m : ℚ) * 2 ^ g := rfl

theorem flscale100_mk (m : ℕ) (g : ℤ) : flscale100 (m, g) =
    if bitLen (m * 100) ≤ 53 then (m * 100, g)
    else (rne (m * 100) (2 ^ (bitLen (m * 100) - 53)), g + ((bitLen (m * 100) : ℤ) - 53)) :=
  rfl

theorem fldiv_spec (d t : ℕ) (ht : t ≠ 0) : dyVal (fldiv d t) = roundFl ((d : ℚ) / t) := by
  have htp : (0 : ℚ) < t := by exact_mod_cast Nat.pos_of_ne_zero ht
  by_cases hd : d = 0
  · subst hd
    simp [fldiv, dyVal, roundFl]
  · have hdp : (0 : ℚ) < d := by exact_mod_cast Nat.pos_of_ne_zero hd
    have hq : 0 < (d : ℚ) / t := div_pos hdp htp
    obtain ⟨h1, h2⟩ := qexpR_spec hd ht
    have hlog : Int.log 2 ((d : ℚ) / t) = qexpR d t := log_eq_of hq h1 h2
    rw [roundFl, if_pos hq, hlog]
    unfold fldiv
    rw [if_neg hd]
    by_cases hg : 0 ≤ qexpR d t - 52
    · rw [if_pos hg]
      set G := qexpR d t - 52 with hG
      have hbpos : 0 < t * 2 ^ G.toNat :=
        Nat.mul_pos (Nat.pos_of_ne_zero ht) (Nat.pos_pow_of_pos _ (by norm_num))
      have hbne : t * 2 ^ G.toNat ≠ 0 := by omega
      have hr := rne_eq_rhe d (t * 2 ^ G.toNat) hbne
      have harg : (d : ℚ) / ((t * 2 ^ G.toNat : ℕ) : ℚ) = ((d : ℚ) / t) / 2 ^ G := by
        push_cast
        rw [div_div]
        congr 2
        rw [← zpow_natCast (2 : ℚ) G.toNat, Int.toNat_of_nonneg hg]
      rw [roundAt, ← harg, ← hr, dyVal_mk]
      push_cast
      ring
    · rw [if_neg hg]
      set G := qexpR d t - 52 with hG
      set N := (-G).toNat with hNdef
      have hGN : G = -(N : ℤ) := by omega
      have harg : ((d * 2 ^ N : ℕ) : ℚ) / t = ((d : ℚ) / t) / 2 ^ G := by
        have h2pos : ((2 ^ N : ℕ) : ℚ) ≠ 0 := by
          have : (0 : ℕ) < 2 ^ N := Nat.pos_pow_of_pos N (by norm_num)
          exact_mod_cast Nat.pos_iff_ne_zero.mp this
        have htne : (t : ℚ) ≠ 0 := ne_of_gt htp
        rw [hGN, zpow_neg, q2pow_nat N]
        field_simp
      have hr := rne_eq_rhe (d * 2 ^ N) t ht
      rw [roundAt, ← harg, ← hr, dyVal_mk]
      push_cast
      ring

theorem flscale100_spec (p : ℕ × ℤ) : dyVal (flscale100 p) = roundFl (dyVal p * 100) := by
  obtain ⟨m, g⟩ := p
  by_cases hm : m = 0
  · subst hm
    simp [flscale100_mk, dyVal, roundFl, bitLen, bitLenAux]
  · have hMne : m * 100 ≠ 0 := by omega
    obtain ⟨hMlo, hMhi⟩ := bitLen_spec (m * 100) hMne
    have hL1 := bitLen_pos (m * 100) hMne
    set L := bitLen (m * 100) with hLdef
    have hval : dyVal (m, g) * 100 = ((m * 100 : ℕ) : ℚ) * 2 ^ g := by
      rw [dyVal_mk]
      push_cast
      ring
    have hpos : 0 < ((m * 100 : ℕ) : ℚ) * 2 ^ g := by
      apply mul_pos _ (zpow_pos (by norm_num) g)
      exact_mod_cast Nat.pos_of_ne_zero hMne
    have hlogv : Int.log 2 (((m * 100 : ℕ) : ℚ) * 2 ^ g) = (L : ℤ) - 1 + g := by
      apply log_eq_of hpos
      · have h1 : ((2 ^ (L - 1) : ℕ) : ℚ) ≤ ((m * 100 : ℕ) : ℚ) := by exact_mod_cast hMlo
        calc (2 : ℚ) ^ ((L : ℤ) - 1 + g) = (2 : ℚ) ^ ((L : ℤ) - 1) * 2 ^ g :=
            zpow_add₀ (by norm_num) _ _
          _ = ((2 ^ (L - 1) : ℕ) : ℚ) * 2 ^ g := by
              rw [show (L : ℤ) - 1 = ((L - 1 : ℕ) : ℤ) by omega, q2pow_nat]
          _ ≤ ((m * 100 : ℕ) : ℚ) * 2 ^ g :=
            mul_le_mul_of_nonneg_right h1 (le_of_lt (zpow_pos (by norm_num) g))
      · have h1 : ((m * 100 : ℕ) : ℚ) < ((2 ^ L : ℕ) : ℚ) := by exact_mod_cast hMhi
        calc ((m * 100 : ℕ) : ℚ) * 2 ^ g < ((2 ^ L : ℕ) : ℚ) * 2 ^ g :=
            mul_lt_mul_of_pos_right h1 (zpow_pos (by norm_num) g)
          _ = (2 : ℚ) ^ ((L : ℤ) - 1 + g + 1) := by
              rw [← q2pow_nat L, ← zpow_add₀ (by norm_num : (2 : ℚ) ≠ 0)]
              congr 1
              omega
    rw [hval, roundFl, if_pos hpos, hlogv, flscale100_mk, ← hLdef]
    by_cases hbit : L ≤ 53
    · rw [if_pos hbit]
      have key : ((m * 100 : ℕ) : ℚ) * 2 ^ g =
          (((m * 100 * 2 ^ (53 - L) : ℕ) : ℤ) : ℚ) * 2 ^ ((L : ℤ) - 1 + g - 52) := by
        have e1 : (((m * 100 * 2 ^ (53 - L) : ℕ) : ℤ) : ℚ) =
            ((m * 100 : ℕ) : ℚ) * ((2 ^ (53 - L) : ℕ) : ℚ) := by
          push_cast
          ring
        rw [e1, ← q2pow_nat (53 - L), mul_assoc, ← zpow_add₀ (by norm_num : (2 : ℚ) ≠ 0),
          show ((53 - L : ℕ) : ℤ) + ((L : ℤ) - 1 + g - 52) = g by omega]
      rw [key, roundAt_dyadic, ← key, dyVal_mk]
    · rw [if_neg hbit]
      set s := L - 53 with hs
      have hzne : (2 : ℕ) ^ s ≠ 0 := pow_ne_zero _ (by norm_num)
      have hr := rne_eq_rhe (m * 100) (2 ^ s) hzne
      have hgs : (L : ℤ) - 1 + g - 52 = g + ((L : ℤ) - 53) := by ring
      have hexp : g + ((L : ℤ) - 53) = g + (s : ℤ) := by omega
      have harg : ((m * 100 : ℕ) : ℚ) / ((2 ^ s : ℕ) : ℚ) =
          (((m * 100 : ℕ) : ℚ) * 2 ^ g) / 2 ^ (g + (s : ℤ)) := by
        rw [zpow_add₀ (by norm_num : (2 : ℚ) ≠ 0), ← q2pow_nat s]
        have h2g : (2 : ℚ) ^ g ≠ 0 := ne_of_gt (zpow_pos (by norm_num) g)
        have h2s : ((2 ^ s : ℕ) : ℚ) ≠ 0 := by
          exact_mod_cast hzne
        field_simp
        ring
      rw [roundAt, hgs, hexp, ← harg, ← hr, dyVal_mk]
      push_cast
      ring

theorem pctFloat_spec (d t : ℕ) (ht : t ≠ 0) :
    (pctFloat d t : ℤ) = ⌊roundFl (roundFl ((d : ℚ) / t) * 100)⌋ := by
  have hval : dyVal (flscale100 (fldiv d t)) = roundFl (roundFl ((d : ℚ) / t) * 100) := by
    rw [flscale100_spec, fldiv_spec d t ht]
  rcases hP : flscale100 (fldiv d t) with ⟨m, g⟩
  rw [hP] at hval
  rw [← hval]
  unfold pctFloat
  rw [if_neg ht, hP]
  dsimp only
  by_cases hg : 0 ≤ g
  · rw [if_pos hg, dyVal_mk]
    have hcast : (m : ℚ) * 2 ^ g = ((m * 2 ^ g.toNat : ℕ) : ℚ) := by
      push_cast
      rw [← zpow_natCast (2 : ℚ) g.toNat, Int.toNat_of_nonneg hg]
    rw [hcast, Int.floor_natCast]
  · rw [if_neg hg, dyVal_mk]
    set N := (-g).toNat with hN
    have hg' : g = -(N : ℤ) := by omega
    have hcast : (m : ℚ) * 2 ^ g = (m : ℚ) / ((2 ^ N : ℕ) : ℚ) := by
      rw [hg', zpow_neg, ← q2pow_nat N, div_eq_mul_inv]
    rw [hcast, floor_nat_div m (2 ^ N) (pow_ne_zero _ (by norm_num))]

theorem pctFloat_mono {t : ℕ} (ht : t ≠ 0) {d d' : ℕ} (h : d ≤ d') :
    pctFloat d t ≤ pctFloat d' t := by
  have htp : (0 : ℚ) < t := by exact_mod_cast Nat.pos_of_ne_zero ht
  have hq : (d : ℚ) / t ≤ (d' : ℚ) / t := by
    apply (div_le_div_iff_of_pos_right htp).mpr
    exact_mod_cast h
  have key : (pctFloat d t : ℤ) ≤ (pctFloat d' t : ℤ) := by
    rw [pctFloat_spec d t ht, pctFloat_spec d' t ht]
    apply Int.floor_le_floor
    apply roundFl_mono
    exact mul_le_mul_of_nonneg_right (roundFl_mono hq) (by norm_num)
  exact_mod_cast key

example : pctFloat 29 50 = 57 := by decide

example : pctFloat 29 100 = 28 := by decide

example : pctFloat 1 1 = 100 := by decide

example : pctFloat 3 3 = 100 := by decide

example : pctFloat 0 5 = 0 := by decide

example : pctFloat 1 3 = 33 := by decide

example : 100 * 29 / 50 = 58 := by decide

example : refererOf "https://site.com/path/file.jpg" = "https://site.com/path/" := by decide

example : refererOf "https://site.com" = "https://site.com/" := by decide

theorem countP_sum_set {α : Type} (p : α → Bool) :
    ∀ (ls : List (List α)) (i : ℕ) (x : α) (l : List α), ls[i]? = some (x :: l) →
      (ls.map (fun m => m.countP p)).sum
        = ((ls.set i l).map (fun m => m.countP p)).sum + (if p x then 1 else 0) := by
  intro ls
  induction ls with
  | nil => intro i x l h; simp at h
  | cons m rest ih =>
    intro i x l h
    cases i with
    | zero =>
      simp only [List.getElem?_cons_zero, Option.some_inj] at h
      subst h
      simp only [List.set_cons_zero, List.map_cons, List.sum_cons, List.countP_cons]
      cases hp : p x <;> simp <;> omega
    | succ i' =>
      simp only [List.getElem?_cons_succ] at h
      have := ih i' x l h
      simp only [List.set_cons_succ, List.map_cons, List.sum_cons]
      omega

theorem Interleaves_countP {α : Type} {ls : List (List α)} {t : List α}
    (h : Interleaves ls t) (p : α → Bool) :
    t.countP p = (ls.map (fun m => m.countP p)).sum := by
  induction h with
  | nil ls h =>
    simp only [List.countP_nil]
    symm
    apply List.sum_eq_zero
    intro x hx
    obtain ⟨l, hl, rfl⟩ := List.mem_map.mp hx
    rw [h l hl]
    exact List.countP_nil p
  | cons ls i x l t hi htail ih =>
    rw [List.countP_cons, ih, countP_sum_set p ls i x l hi]

theorem Interleaves_length {α : Type} {ls : List (List α)} {t : List α}
    (h : Interleaves ls t) : t.length = (ls.map List.length).sum := by
  have := Interleaves_countP h (fun _ => true)
  simpa [List.countP_true] using this

theorem Interleaves_cons_nil {α : Type} {ls : List (List α)} {t : List α}
    (h : Interleaves ls t) : Interleaves ([] :: ls) t := by
  induction h with
  | nil ls h =>
    apply Interleaves.nil
    intro l hl
    rcases hl with _ | hl
    · rfl
    · exact h _ (by assumption)
  | cons ls i x l t hi htail ih =>
    exact Interleaves.cons ([] :: ls) (i + 1) x l t (by simpa using hi) (by simpa using ih)

theorem Interleaves_prepend {α : Type} (l : List α) {ls : List (List α)} {t : List α}
    (h : Interleaves ls t) : Interleaves (l :: ls) (l ++ t) := by
  induction l with
  | nil => simpa using Interleaves_cons_nil h
  | cons x l' ih =>
    refine Interleaves.cons ((x :: l') :: ls) 0 x l' (l' ++ t) (by simp) ?_
    simpa using ih

theorem Interleaves_flatten {α : Type} (ls : List (List α)) : Interleaves ls ls.flatten := by
  induction ls with
  | nil => exact Interleaves.nil [] (by simp)
  | cons l rest ih => simpa using Interleaves_prepend l ih

theorem download_file_succeeded (hs : Headers) (total prev : ℕ) (lp ru : String)
    (tid : ℕ) (env : TaskEnv) :
    (download_file hs total prev lp ru tid env).succeeded = envSucceeds env := by
  rcases env with ⟨net, body⟩
  cases net with
  | resp status chunks =>
    cases body <;> by_cases h200 : status = 200 <;>
      simp [download_file, envSucceeds, h200]
  | transportError d => cases body <;> simp [download_file, envSucceeds]
  | raiseOther d => cases body <;> simp [download_file, envSucceeds]

theorem download_file_head (hs : Headers) (total prev : ℕ) (lp ru : String)
    (tid : ℕ) (env : TaskEnv) :
    (download_file hs total prev lp ru tid env).events.head? = some (.slotStatus tid true) := by
  rcases env with ⟨net, body⟩
  cases net with
  | resp status chunks =>
    cases body <;> by_cases h200 : status = 200 <;> simp [download_file, h200]
  | transportError d => cases body <;> simp [download_file]
  | raiseOther d => cases body <;> simp [download_file]

theorem download_file_getLast (hs : Headers) (total prev : ℕ) (lp ru : String)
    (tid : ℕ) (env : TaskEnv) :
    (download_file hs total prev lp ru tid env).events.getLast?
      = some (.slotStatus tid false) := by
  rcases env with ⟨net, body⟩
  cases net with
  | resp status chunks =>
    cases body <;> by_cases h200 : status = 200 <;> simp [download_file, h200]
  | transportError d => cases body <;> simp [download_file]
  | raiseOther d => cases body <;> simp [download_file]

theorem download_file_exc (hs : Headers) (total prev : ℕ) (lp ru : String)
    (tid : ℕ) (env : TaskEnv) :
    (download_file hs total prev lp ru tid env).exc.isSome = envEscapes env := by
  rcases env with ⟨net, body⟩
  cases net with
  | resp status chunks =>
    cases body <;> by_cases h200 : status = 200 <;>
      simp [download_file, envEscapes, h200]
  | transportError d => cases body <;> simp [download_file, envEscapes]
  | raiseOther d => cases body <;> simp [download_file, envEscapes]

theorem download_file_sent (hs : Headers) (total prev : ℕ) (lp ru : String)
    (tid : ℕ) (env : TaskEnv) :
    (download_file hs total prev lp ru tid env).sent = reqHeadersFor hs ru := by
  rcases env with ⟨net, body⟩
  cases net with
  | resp status chunks =>
    cases body <;> by_cases h200 : status = 200 <;> simp [download_file, h200]
  | transportError d => cases body <;> simp [download_file]
  | raiseOther d => cases body <;> simp [download_file]

theorem unitTrace_countP_progress (hs : Headers) (total prev : ℕ) (lp ru : String)
    (tid : ℕ) (env : TaskEnv) :
    (unitTrace hs total prev lp ru tid env).countP isProgressEv
      = if envSucceeds env then 1 else 0 := by
  rcases env with ⟨net, body⟩
  cases net with
  | resp status chunks =>
    cases body <;> by_cases h200 : status = 200 <;>
      simp [unitTrace, download_file, poolEvents, envSucceeds, isProgressEv, h200]
  | transportError d =>
    cases body <;> simp [unitTrace, download_file, poolEvents, envSucceeds, isProgressEv]
  | raiseOther d =>
    cases body <;> simp [unitTrace, download_file, poolEvents, envSucceeds, isProgressEv]

theorem unitTrace_countP_idleOf (hs : Headers) (total prev : ℕ) (lp ru : String)
    (tid : ℕ) (env : TaskEnv) (k : ℕ) :
    (unitTrace hs total prev lp ru tid env).countP (isIdleOf k)
      = if tid = k then 1 else 0 := by
  rcases env with ⟨net, body⟩
  cases net with
  | resp status chunks =>
    cases body <;> by_cases h200 : status = 200 <;> by_cases htid : tid = k <;>
      simp [unitTrace, download_file, poolEvents, isIdleOf, h200, htid]
  | transportError d =>
    cases body <;> by_cases htid : tid = k <;>
      simp [unitTrace, download_file, poolEvents, isIdleOf, htid]
  | raiseOther d =>
    cases body <;> by_cases htid : tid = k <;>
      simp [unitTrace, download_file, poolEvents, isIdleOf, htid]

theorem unitTrace_countP_busyOf (hs : Headers) (total prev : ℕ) (lp ru : String)
    (tid : ℕ) (env : TaskEnv) (k : ℕ) :
    (unitTrace hs total prev lp ru tid env).countP (isBusyOf k)
      = if tid = k then 1 else 0 := by
  rcases env with ⟨net, body⟩
  cases net with
  | resp status chunks =>
    cases body <;> by_cases h200 : status = 200 <;> by_cases htid : tid = k <;>
      simp [unitTrace, download_file, poolEvents, isBusyOf, h200, htid]
  | transportError d =>
    cases body <;> by_cases htid : tid = k <;>
      simp [unitTrace, download_file, poolEvents, isBusyOf, htid]
  | raiseOther d =>
    cases body <;> by_cases htid : tid = k <;>
      simp [unitTrace, download_file, poolEvents, isBusyOf, htid]

theorem unitTrace_countP_unhandled (hs : Headers) (total prev : ℕ) (lp ru : String)
    (tid : ℕ) (env : TaskEnv) :
    (unitTrace hs total prev lp ru tid env).countP isUnhandledEv
      = if envEscapes env then 1 else 0 := by
  rcases env with ⟨net, body⟩
  cases net with
  | resp status chunks =>
    cases body <;> by_cases h200 : status = 200 <;>
      simp [unitTrace, download_file, poolEvents, envEscapes, isUnhandledEv, h200]
  | transportError d =>
    cases body <;> simp [unitTrace, download_file, poolEvents, envEscapes, isUnhandledEv]
  | raiseOther d =>
    cases body <;> simp [unitTrace, download_file, poolEvents, envEscapes, isUnhandledEv]

theorem unitTrace_countP_httpFailed (hs : Headers) (total prev : ℕ) (lp ru : String)
    (tid : ℕ) (env : TaskEnv) :
    (unitTrace hs total prev lp ru tid env).countP isHttpFailedEv
      = if envHttpFails env then 1 else 0 := by
  rcases env with ⟨net, body⟩
  cases net with
  | resp status chunks =>
    cases body <;> by_cases h200 : status = 200 <;>
      simp [unitTrace, download_file, poolEvents, envHttpFails, isHttpFailedEv, h200]
  | transportError d =>
    cases body <;> simp [unitTrace, download_file, poolEvents, envHttpFails, isHttpFailedEv]
  | raiseOther d =>
    cases body <;> simp [unitTrace, download_file, poolEvents, envHttpFails, isHttpFailedEv]

theorem unitTrace_countP_transport (hs : Headers) (total prev : ℕ) (lp ru : String)
    (tid : ℕ) (env : TaskEnv) :
    (unitTrace hs total prev lp ru tid env).countP isTransportEv
      = if envTransportLogs env then 1 else 0 := by
  rcases env with ⟨net, body⟩
  cases net with
  | resp status chunks =>
    cases body <;> by_cases h200 : status = 200 <;>
      simp [unitTrace, download_file, poolEvents, envTransportLogs, isTransportEv, h200]
  | transportError d =>
    cases body <;> simp [unitTrace, download_file, poolEvents, envTransportLogs, isTransportEv]
  | raiseOther d =>
    cases body <;> simp [unitTrace, download_file, poolEvents, envTransportLogs, isTransportEv]

theorem unitTrace_progressValues (hs : Headers) (total prev : ℕ) (lp ru : String)
    (tid : ℕ) (env : TaskEnv) :
    progressValues (unitTrace hs total prev lp ru tid env)
      = if envSucceeds env then [pctFloat (prev + 1) total] else [] := by
  rcases env with ⟨net, body⟩
  cases net with
  | resp status chunks =>
    cases body <;> by_cases h200 : status = 200 <;>
      simp [unitTrace, download_file, poolEvents, envSucceeds, progressValues, progressOf, h200]
  | transportError d =>
    cases body <;>
      simp [unitTrace, download_file, poolEvents, envSucceeds, progressValues, progressOf]
  | raiseOther d =>
    cases body <;>
      simp [unitTrace, download_file, poolEvents, envSucceeds, progressValues, progressOf]

theorem sum_ite_eq_countP {α : Type} (p : α → Bool) (l : List α) :
    (l.map (fun x => if p x then 1 else 0)).sum = l.countP p := by
  induction l with
  | nil => simp
  | cons x rest ih =>
    simp only [List.map_cons, List.sum_cons, List.countP_cons, ih]
    cases p x <;> simp <;> omega

theorem rankedTraces_sum_countP (hs : Headers) (N total : ℕ) (ranks : ℕ → ℕ)
    (p : Event → Bool) (g : ((String × String) × TaskEnv) → ℕ)
    (hg : ∀ prev lp ru tid env,
      (unitTrace hs total prev lp ru tid env).countP p = g ((lp, ru), env)) :
    ∀ (l : List ((String × String) × TaskEnv)) (i : ℕ),
      ((rankedTraces hs N total ranks i l).map (fun m => m.countP p)).sum
        = (l.map g).sum := by
  intro l
  induction l with
  | nil => intro i; simp [rankedTraces]
  | cons task rest ih =>
    intro i
    rcases task with ⟨⟨lp, ru⟩, env⟩
    simp only [rankedTraces, List.map_cons, List.sum_cons, ih (i + 1), hg]

theorem rankedTraces_sum_slotCount (hs : Headers) (N total : ℕ) (ranks : ℕ → ℕ)
    (p : Event → Bool) (k : ℕ)
    (hg : ∀ prev lp ru tid env,
      (unitTrace hs total prev lp ru tid env).countP p = if tid = k then 1 else 0) :
    ∀ (l : List ((String × String) × TaskEnv)) (i : ℕ),
      ((rankedTraces hs N total ranks i l).map (fun m => m.countP p)).sum
        = assignedCount N k i l.length := by
  intro l
  induction l with
  | nil => intro i; simp [rankedTraces, assignedCount]
  | cons task rest ih =>
    intro i
    rcases task with ⟨⟨lp, ru⟩, env⟩
    simp only [rankedTraces, List.map_cons, List.sum_cons, List.length_cons, assignedCount,
      hg, ih (i + 1)]

theorem runSeqAux_events (hs : Headers) (N total : ℕ) (ranks : ℕ → ℕ) :
    ∀ (l : List ((String × String) × TaskEnv)) (i c : ℕ) (fs : FS),
      (∀ j, ranks (i + j) = c + countSuccesses (l.take j)) →
      (runSeqAux hs N total i c fs l).1 = (rankedTraces hs N total ranks i l).flatten := by
  intro l
  induction l with
  | nil => intro i c fs _; simp [runSeqAux, rankedTraces]
  | cons task rest ih =>
    intro i c fs hr
    rcases task with ⟨⟨lp, ru⟩, env⟩
    have h0 : ranks i = c := by
      have h := hr 0
      simpa [countSuccesses] using h
    have hsucc := download_file_succeeded hs total c lp ru (i % N) env
    have hr' : ∀ j, ranks (i + 1 + j)
        = (if envSucceeds env then c + 1 else c) + countSuccesses (rest.take j) := by
      intro j
      have h1 := hr (j + 1)
      have h2 : i + (j + 1) = i + 1 + j := by omega
      rw [h2] at h1
      rw [h1, List.take_succ_cons]
      simp only [countSuccesses, List.countP_cons]
      cases henv : envSucceeds env <;> simp <;> omega
    dsimp only [runSeqAux, rankedTraces]
    rw [List.flatten_cons]
    congr 1
    · rw [unitTrace, h0]
    · rw [hsucc]
      by_cases henv : envSucceeds env = true
      · rw [if_pos henv]
        exact ih (i + 1) (c + 1) _ (by intro j; rw [hr' j, if_pos henv])
      · rw [if_neg henv]
        exact ih (i + 1) c _ (by intro j; rw [hr' j, if_neg henv])

theorem progressValues_append (a b : List Event) :
    progressValues (a ++ b) = progressValues a ++ progressValues b := by
  simp [progressValues]

theorem runSeqAux_progressValues (hs : Headers) (N total : ℕ) :
    ∀ (l : List ((String × String) × TaskEnv)) (i c : ℕ) (fs : FS),
      progressValues ((runSeqAux hs N total i c fs l).1)
        = (List.range' (c + 1) (countSuccesses l)).map (fun j => pctFloat j total) := by
  intro l
  induction l with
  | nil => intro i c fs; simp [runSeqAux, countSuccesses, progressValues]
  | cons task rest ih =>
    intro i c fs
    rcases task with ⟨⟨lp, ru⟩, env⟩
    dsimp only [runSeqAux]
    rw [progressValues_append]
    have hunit := unitTrace_progressValues hs total c lp ru (i % N) env
    rw [unitTrace] at hunit
    rw [hunit, download_file_succeeded hs total c lp ru (i % N) env]
    have hcs : countSuccesses (((lp, ru), env) :: rest)
        = countSuccesses rest + (if envSucceeds env = true then 1 else 0) := by
      simp [countSuccesses, List.countP_cons]
    rw [hcs]
    by_cases henv : envSucceeds env = true
    · simp only [if_pos henv]
      rw [ih (i + 1) (c + 1) _, List.range'_succ]
      simp
    · simp only [if_neg henv]
      rw [ih (i + 1) c _]
      simp

theorem runSeqAux_count (hs : Headers) (N total : ℕ) :
    ∀ (l : List ((String × String) × TaskEnv)) (i c : ℕ) (fs : FS),
      (runSeqAux hs N total i c fs l).2.2 = c + countSuccesses l := by
  intro l
  induction l with
  | nil => intro i c fs; simp [runSeqAux, countSuccesses]
  | cons task rest ih =>
    intro i c fs
    rcases task with ⟨⟨lp, ru⟩, env⟩
    dsimp only [runSeqAux]
    rw [ih (i + 1), download_file_succeeded hs total c lp ru (i % N) env]
    simp only [countSuccesses, List.countP_cons]
    cases henv : envSucceeds env <;> simp <;> omega

theorem canonicalProgress_eq_range' (s total : ℕ) :
    (List.range' 1 s).map (fun j => pctFloat j total) = canonicalProgress s total := by
  unfold canonicalProgress
  rw [List.range'_eq_map_range, List.map_map]
  apply List.map_congr_left
  intro j _
  simp [Nat.add_comm]

/-- The sequential schedule of `DownloadWorker.run` is a valid run: its trace
interleaves the per-task traces (trivially, in order) and reports the
canonical progress sequence. -/
theorem runWorker_valid (cfg : RunConfig) (fs : FS) : ValidRun cfg (runWorker cfg fs).1 := by
  by_cases h : cfg.tasks = []
  · left
    exact ⟨h, by simp [runWorker, h]⟩
  · right
    refine ⟨h, fun i => countSuccesses (cfg.tasks.take i), ?_, ?_⟩
    · have he := runSeqAux_events cfg.headers cfg.num_threads cfg.tasks.length
        (fun i => countSuccesses (cfg.tasks.take i)) cfg.tasks 0 0 fs
        (by intro j; simp)
      rw [runWorker, if_neg h, he]
      exact Interleaves_flatten _
    · rw [runWorker, if_neg h, runSeqAux_progressValues, Nat.zero_add,
        canonicalProgress_eq_range']

theorem pyGet_pySet_ne {α : Type} (l : List (String × α)) (k P : String) (v : α)
    (h : k ≠ P) : pyGet (pySet l k v) P = pyGet l P := by
  induction l with
  | nil => simp [pySet, pyGet, h]
  | cons p rest ih =>
    rcases p with ⟨k', v'⟩
    by_cases hk : k' = k
    · subst hk
      simp [pySet, pyGet, h]
    · simp [pySet, pyGet, hk]
      split_ifs with hP
      · rfl
      · exact ih

theorem pyGet_pySet_self {α : Type} (l : List (String × α)) (k : String) (v : α) :
    pyGet (pySet l k v) k = some v := by
  induction l with
  | nil => simp [pySet, pyGet]
  | cons p rest ih =>
    rcases p with ⟨k', v'⟩
    by_cases hk : k' = k
    · subst hk
      simp [pySet, pyGet]
    · simp [pySet, pyGet, hk]
      exact ih

theorem download_file_written (hs : Headers) (total prev : ℕ) (lp ru : String)
    (tid : ℕ) (env : TaskEnv) :
    (download_file hs total prev lp ru tid env).written = envWritten env := by
  rcases env with ⟨net, body⟩
  cases net with
  | resp status chunks =>
    cases body <;> by_cases h200 : status = 200 <;>
      simp [download_file, envWritten, h200]
  | transportError d => cases body <;> simp [download_file, envWritten]
  | raiseOther d => cases body <;> simp [download_file, envWritten]

theorem fsRead_applyUnit_none (fs : FS) (lp : String) (u : UnitResult)
    (h : u.written = none) (P : String) : fsRead (applyUnit fs lp u) P = fsRead fs P := by
  simp [applyUnit, h, fsRead]

theorem fsRead_applyUnit_ne (fs : FS) (lp : String) (u : UnitResult) (P : String)
    (h : lp ≠ P) : fsRead (applyUnit fs lp u) P = fsRead fs P := by
  cases hw : u.written with
  | none => simp [applyUnit, hw, fsRead]
  | some c => simp [applyUnit, hw, fsRead, pyGet_pySet_ne _ _ _ _ h]

theorem runSeqAux_files_preserved (hs : Headers) (N total : ℕ) (P : String) :
    ∀ (l : List ((String × String) × TaskEnv)) (i c : ℕ) (fs : FS),
      (∀ task ∈ l, task.1.1 = P → envWritten task.2 = none) →
      fsRead (runSeqAux hs N total i c fs l).2.1 P = fsRead fs P := by
  intro l
  induction l with
  | nil => intro i c fs _; rfl
  | cons task rest ih =>
    intro i c fs hl
    rcases task with ⟨⟨lp, ru⟩, env⟩
    dsimp only [runSeqAux]
    rw [ih (i + 1) _ _ (fun task ht => hl task (List.mem_cons_of_mem _ ht))]
    by_cases hp : lp = P
    · apply fsRead_applyUnit_none
      rw [download_file_written]
      exact hl ((lp, ru), env) (List.mem_cons_self _ _) hp
    · exact fsRead_applyUnit_ne _ _ _ _ hp

theorem mem_unionDirs_left {x : String} {ds new : List String} (h : x ∈ ds) :
    x ∈ unionDirs ds new :=
  List.mem_append_left _ h

theorem mem_unionDirs_right {x : String} {ds new : List String} (h : x ∈ new) :
    x ∈ unionDirs ds new := by
  by_cases hc : ds.contains x
  · obtain ⟨y, hy1, hy2⟩ := List.contains_iff_exists_mem_beq.mp hc
    have hxy : x = y := by simpa using hy2
    exact List.mem_append_left _ (hxy ▸ hy1)
  · apply List.mem_append_right
    rw [List.mem_filter]
    exact ⟨h, by simpa using hc⟩

theorem applyUnit_dirs_super {x : String} (fs : FS) (lp : String) (u : UnitResult)
    (h : x ∈ fs.dirs) : x ∈ (applyUnit fs lp u).dirs := by
  cases hw : u.written <;> simp [applyUnit, hw] <;> exact mem_unionDirs_left h

theorem applyUnit_dirs_new {x : String} (fs : FS) (lp : String) (u : UnitResult)
    (h : x ∈ mkdirsSet (dirname lp)) : x ∈ (applyUnit fs lp u).dirs := by
  cases hw : u.written <;> simp [applyUnit, hw] <;> exact mem_unionDirs_right h

theorem runSeqAux_dirs_mono (hs : Headers) (N total : ℕ) {x : String} :
    ∀ (l : List ((String × String) × TaskEnv)) (i c : ℕ) (fs : FS),
      x ∈ fs.dirs → x ∈ (runSeqAux hs N total i c fs l).2.1.dirs := by
  intro l
  induction l with
  | nil => intro i c fs h; exact h
  | cons task rest ih =>
    intro i c fs h
    rcases task with ⟨⟨lp, ru⟩, env⟩
    exact ih (i + 1) _ _ (applyUnit_dirs_super _ _ _ h)

theorem runSeqAux_dirs_task (hs : Headers) (N total : ℕ) {x : String} :
    ∀ (l : List ((String × String) × TaskEnv)) (i c : ℕ) (fs : FS)
      (task : (String × String) × TaskEnv), task ∈ l →
      x ∈ mkdirsSet (dirname task.1.1) →
      x ∈ (runSeqAux hs N total i c fs l).2.1.dirs := by
  intro l
  induction l with
  | nil => intro i c fs task ht _; cases ht
  | cons task0 rest ih =>
    intro i c fs task ht hx
    rcases task0 with ⟨⟨lp, ru⟩, env⟩
    rcases List.mem_cons.mp ht with heq | hmem
    · subst heq
      exact runSeqAux_dirs_mono hs N total rest _ _ _ (applyUnit_dirs_new _ _ _ hx)
    · exact ih (i + 1) _ _ task hmem hx

theorem validRun_countP {cfg : RunConfig} {trace : List Event} (hne : cfg.tasks ≠ [])
    (h : ValidRun cfg trace) (p : Event → Bool) (g : ((String × String) × TaskEnv) → ℕ)
    (hg : ∀ prev lp ru tid env,
      (unitTrace cfg.headers cfg.tasks.length prev lp ru tid env).countP p
        = g ((lp, ru), env)) :
    trace.countP p = (cfg.tasks.map g).sum := by
  rcases h with ⟨he, _⟩ | ⟨_, ranks, hint, _⟩
  · exact absurd he hne
  · rw [Interleaves_countP hint p, rankedTraces_sum_countP _ _ _ _ p g hg]

theorem validRun_slotCount {cfg : RunConfig} {trace : List Event} (hne : cfg.tasks ≠ [])
    (h : ValidRun cfg trace) (p : Event → Bool) (k : ℕ)
    (hg : ∀ prev lp ru tid env,
      (unitTrace cfg.headers cfg.tasks.length prev lp ru tid env).countP p
        = if tid = k then 1 else 0) :
    trace.countP p = assignedCount cfg.num_threads k 0 cfg.tasks.length := by
  rcases h with ⟨he, _⟩ | ⟨_, ranks, hint, _⟩
  · exact absurd he hne
  · rw [Interleaves_countP hint p, rankedTraces_sum_slotCount _ _ _ _ p k hg]

theorem sum_map_ite {α : Type} (p : α → Bool) (l : List α) :
    (l.map (fun x => if p x then 1 else 0)).sum = l.countP p :=
  sum_ite_eq_countP p l

/-- C1.  For every dispatched task, `download_file` emits the busy signal
for its slot as its first event - before the directory creation and the
network call - and the matching idle signal as its last event, on every exit
path of the modelled environment (success, non-200 status, transport error,
and unexpected failure mid-fetch); consequently, in every valid run each
slot emits exactly as many idle events as tasks were assigned to it by the
round-robin `i % num_threads` rule. -/
theorem claim_C1 :
    (∀ (hs : Headers) (total prev : ℕ) (lp ru : String) (tid : ℕ) (env : TaskEnv),
      (download_file hs total prev lp ru tid env).events.head?
          = some (.slotStatus tid true) ∧
      (download_file hs total prev lp ru tid env).events.getLast?
          = some (.slotStatus tid false)) ∧
    (∀ (cfg : RunConfig) (trace : List Event), ValidRun cfg trace → ∀ k : ℕ,
      trace.countP (isIdleOf k) = assignedCount cfg.num_threads k 0 cfg.tasks.length ∧
      trace.countP (isIdleOf k) = trace.countP (isBusyOf k)) := by
  constructor
  · intro hs total prev lp ru tid env
    exact ⟨download_file_head hs total prev lp ru tid env,
      download_file_getLast hs total prev lp ru tid env⟩
  · intro cfg trace h k
    rcases h with ⟨he, ht⟩ | ⟨hne, ranks, hint, _⟩
    · subst ht
      simp [he, assignedCount, isIdleOf, isBusyOf, List.countP_cons]
    · constructor
      · rw [Interleaves_countP hint (isIdleOf k),
          rankedTraces_sum_slotCount _ _ _ _ (isIdleOf k) k
            (fun prev lp ru tid env => unitTrace_countP_idleOf _ _ prev lp ru tid env k)]
      · rw [Interleaves_countP hint (isIdleOf k), Interleaves_countP hint (isBusyOf k),
          rankedTraces_sum_slotCount _ _ _ _ (isIdleOf k) k
            (fun prev lp ru tid env => unitTrace_countP_idleOf _ _ prev lp ru tid env k),
          rankedTraces_sum_slotCount _ _ _ _ (isBusyOf k) k
            (fun prev lp ru tid env => unitTrace_countP_busyOf _ _ prev lp ru tid env k)]

theorem claim_C1_witness :
    ((download_file [] 2 0 "/t/a.jpg" "http://h/a.jpg" 3 ⟨.resp 200 [[1]], .ok⟩).events.head?
        = some (.slotStatus 3 true) ∧
      (download_file [] 2 0 "/t/a.jpg" "http://h/a.jpg" 3
        ⟨.resp 200 [[1]], .ok⟩).events.getLast? = some (.slotStatus 3 false)) ∧
    (runWorker exCfg exFS).1.countP (isIdleOf 0)
        = assignedCount exCfg.num_threads 0 0 exCfg.tasks.length :=
  ⟨claim_C1.1 [] 2 0 "/t/a.jpg" "http://h/a.jpg" 3 ⟨.resp 200 [[1]], .ok⟩,
    (claim_C1.2 exCfg (runWorker exCfg exFS).1 (runWorker_valid exCfg exFS) 0).1⟩

/-- C2 (amended).  At every instant of a run, the reported progress
percentage equals Python's `int((completed_count / total_tasks) * 100)`
computed in binary64 floating point - the `j`-th progress event of a run
carries `pctFloat j total` - and an empty run emits exactly one progress
event with value 100 immediately.  (The original floor formula
`⌊100·completed/total⌋` is falsified by the counterexample: at 29 of 50
completed the code reports 57, the floor is 58.) -/
theorem claim_C2 :
    ∀ (cfg : RunConfig) (trace : List Event), ValidRun cfg trace →
      (cfg.tasks = [] → trace = [.log .noFiles, .progress 100]) ∧
      progressValues trace
        = (if cfg.tasks = [] then [100]
           else canonicalProgress (countSuccesses cfg.tasks) cfg.tasks.length) := by
  intro cfg trace h
  rcases h with ⟨he, ht⟩ | ⟨hne, ranks, hint, hprog⟩
  · subst ht
    exact ⟨fun _ => rfl, by rw [if_pos he]; rfl⟩
  · exact ⟨fun hc => absurd hc hne, by rw [if_neg hne]; exact hprog⟩

theorem claim_C2_counterexample :
    ValidRun ex50Cfg (runWorker ex50Cfg exFS).1 ∧
    (progressValues (runWorker ex50Cfg exFS).1)[28]? = some 57 ∧
    100 * 29 / 50 = 58 ∧ (57 : ℕ) ≠ 58 :=
  ⟨runWorker_valid ex50Cfg exFS, by decide, by decide, by decide⟩

theorem claim_C2_witness :
    (exCfg.tasks = [] → (runWorker exCfg exFS).1 = [.log .noFiles, .progress 100]) ∧
    progressValues (runWorker exCfg exFS).1
      = (if exCfg.tasks = [] then [100]
         else canonicalProgress (countSuccesses exCfg.tasks) exCfg.tasks.length) :=
  claim_C2 exCfg (runWorker exCfg exFS).1 (runWorker_valid exCfg exFS)

theorem envSucceeds_httpFails_exclusive (env : TaskEnv) :
    ¬(envSucceeds env = true ∧ envHttpFails env = true) := by
  rcases env with ⟨net, body⟩
  cases net with
  | resp status chunks =>
    cases body <;> by_cases h200 : status = 200 <;> simp [envSucceeds, envHttpFails, h200]
  | transportError d => cases body <;> simp [envSucceeds, envHttpFails]
  | raiseOther d => cases body <;> simp [envSucceeds, envHttpFails]

theorem countP_partition {α : Type} (p q : α → Bool) :
    ∀ l : List α, (∀ x ∈ l, p x = true ∨ q x = true) →
      (∀ x ∈ l, ¬(p x = true ∧ q x = true)) →
      l.countP p + l.countP q = l.length := by
  intro l
  induction l with
  | nil => intro _ _; simp
  | cons x rest ih =>
    intro hall hexcl
    have h1 := hall x (List.mem_cons_self x rest)
    have h2 := hexcl x (List.mem_cons_self x rest)
    have h3 := ih (fun y hy => hall y (List.mem_cons_of_mem _ hy))
      (fun y hy => hexcl y (List.mem_cons_of_mem _ hy))
    simp only [List.countP_cons, List.length_cons]
    cases hpx : p x <;> cases hqx : q x <;> simp_all <;> omega

theorem canonicalProgress_getLast (s total : ℕ) :
    (canonicalProgress s total).getLast?
      = if s = 0 then none else some (pctFloat s total) := by
  cases s with
  | zero => rfl
  | succ n =>
    rw [if_neg (Nat.succ_ne_zero n)]
    unfold canonicalProgress
    rw [List.range_succ, List.map_append]
    simp

/-- C3 (amended).  In any run of `n > 0` tasks in which every task either
succeeds or terminates with a non-200 final status, with `k` such failures:
exactly `k` HttpFailure log events are emitted, no failed task increments
the counter - `completed_count` ends at `n - k` (both in the trace and in
the sequential state) - and the final reported progress is the binary64
truncation `pctFloat (n-k) n` of the code's `int(((n-k)/n) * 100)` (absent
entirely when `n - k = 0`).  (The original floor formula, and hence its
`< 100` corollary as stated, is falsified by the counterexample: for
`n = 50`, `k = 21` the final report is 57 while `⌊100·29/50⌋ = 58`.) -/
theorem claim_C3 (cfg : RunConfig) (trace : List Event) (hvalid : ValidRun cfg trace)
    (hne : cfg.tasks ≠ [])
    (hpart : ∀ task ∈ cfg.tasks, envSucceeds task.2 = true ∨ envHttpFails task.2 = true) :
    trace.countP isHttpFailedEv = cfg.tasks.countP (fun t => envHttpFails t.2) ∧
    countSuccesses cfg.tasks
      = cfg.tasks.length - cfg.tasks.countP (fun t => envHttpFails t.2) ∧
    trace.countP isProgressEv = countSuccesses cfg.tasks ∧
    (progressValues trace).getLast?
      = (if countSuccesses cfg.tasks = 0 then none
         else some (pctFloat (countSuccesses cfg.tasks) cfg.tasks.length)) ∧
    (∀ fs : FS, (runWorker cfg fs).2.2
      = cfg.tasks.length - cfg.tasks.countP (fun t => envHttpFails t.2)) := by
  have hk2 : countSuccesses cfg.tasks + cfg.tasks.countP (fun t => envHttpFails t.2)
      = cfg.tasks.length :=
    countP_partition _ _ cfg.tasks hpart
      (fun x _ => envSucceeds_httpFails_exclusive x.2)
  refine ⟨?_, by omega, ?_, ?_, ?_⟩
  · rw [validRun_countP hne hvalid isHttpFailedEv
      (fun t => if envHttpFails t.2 then 1 else 0)
      (fun prev lp ru tid env => unitTrace_countP_httpFailed _ _ prev lp ru tid env)]
    exact sum_ite_eq_countP (fun t => envHttpFails t.2) cfg.tasks
  · rw [validRun_countP hne hvalid isProgressEv
      (fun t => if envSucceeds t.2 then 1 else 0)
      (fun prev lp ru tid env => unitTrace_countP_progress _ _ prev lp ru tid env)]
    exact sum_ite_eq_countP (fun t => envSucceeds t.2) cfg.tasks
  · rcases hvalid with ⟨he, _⟩ | ⟨_, ranks, _, hprog⟩
    · exact absurd he hne
    · rw [hprog, canonicalProgress_getLast]
  · intro fs
    rw [runWorker, if_neg hne, runSeqAux_count]
    omega

theorem claim_C3_counterexample :
    ValidRun ex50Cfg (runWorker ex50Cfg exFS).1 ∧
    countSuccesses ex50Cfg.tasks = 29 ∧
    ex50Cfg.tasks.countP (fun t => envHttpFails t.2) = 21 ∧
    ex50Cfg.tasks.length = 50 ∧
    (progressValues (runWorker ex50Cfg exFS).1).getLast? = some 57 ∧
    (57 : ℕ) ≠ 100 * (50 - 21) / 50 :=
  ⟨runWorker_valid ex50Cfg exFS, by decide, by decide, by decide, by decide, by decide⟩

theorem claim_C3_witness :
    (runWorker ex50Cfg exFS).1.countP isHttpFailedEv
        = ex50Cfg.tasks.countP (fun t => envHttpFails t.2) ∧
    countSuccesses ex50Cfg.tasks
        = ex50Cfg.tasks.length - ex50Cfg.tasks.countP (fun t => envHttpFails t.2) ∧
    (runWorker ex50Cfg exFS).1.countP isProgressEv = countSuccesses ex50Cfg.tasks ∧
    (progressValues (runWorker ex50Cfg exFS).1).getLast?
        = (if countSuccesses ex50Cfg.tasks = 0 then none
           else some (pctFloat (countSuccesses ex50Cfg.tasks) ex50Cfg.tasks.length)) ∧
    (∀ fs : FS, (runWorker ex50Cfg fs).2.2
        = ex50Cfg.tasks.length - ex50Cfg.tasks.countP (fun t => envHttpFails t.2)) :=
  claim_C3 ex50Cfg (runWorker ex50Cfg exFS).1 (runWorker_valid ex50Cfg exFS)
    (by decide) (by decide)

set_option maxHeartbeats 3200000 in
theorem C4_core (ua refererText : String) (dynRef identity connClose : Bool) :
    pyGet (workerInit (buildCore ua refererText dynRef identity connClose))
        "_identity_encoding" = none ∧
    pyGet (workerInit (buildCore ua refererText dynRef identity connClose))
        "_connection_close" = none ∧
    ∀ url : String,
      pyGet (reqHeadersFor (workerInit (buildCore ua refererText dynRef identity connClose))
          url) "_dynamic_referer" = none ∧
      pyGet (reqHeadersFor (workerInit (buildCore ua refererText dynRef identity connClose))
          url) "_identity_encoding" = none ∧
      pyGet (reqHeadersFor (workerInit (buildCore ua refererText dynRef identity connClose))
          url) "_connection_close" = none := by
  by_cases cua : ua ≠ "" ∧ ua ≠ "python-requests/2.x" <;>
    by_cases cref : refererText ≠ "" <;>
      cases dynRef <;> cases identity <;> cases connClose <;>
        simp [buildCore, workerInit, initIdentity, initConnClose, reqHeadersFor,
          pySet, pyDel, pyGet, pySetdefault, truthy, cua, cref]

/-- C4 (amended).  The constructed worker headers never contain the
`_identity_encoding` or `_connection_close` markers - those are consumed by
`__init__` - but, contrary to the original claim, `_dynamic_referer` is NOT
removed at construction (see the counterexample): it stays in the policy
mapping and is consumed per request inside `download_file`, so the header
dict actually passed to `session.get` contains none of the three markers,
for every UI configuration and every URL. -/
theorem claim_C4 :
    (∀ (uaChoice uaCustom refererText : String) (dynRef identity connClose : Bool),
      pyGet (policyHeaders uaChoice uaCustom refererText dynRef identity connClose)
          "_identity_encoding" = none ∧
      pyGet (policyHeaders uaChoice uaCustom refererText dynRef identity connClose)
          "_connection_close" = none ∧
      ∀ url : String,
        pyGet (reqHeadersFor
            (policyHeaders uaChoice uaCustom refererText dynRef identity connClose) url)
          "_dynamic_referer" = none ∧
        pyGet (reqHeadersFor
            (policyHeaders uaChoice uaCustom refererText dynRef identity connClose) url)
          "_identity_encoding" = none ∧
        pyGet (reqHeadersFor
            (policyHeaders uaChoice uaCustom refererText dynRef identity connClose) url)
          "_connection_close" = none) ∧
    (∀ (hs : Headers) (total prev : ℕ) (lp ru : String) (tid : ℕ) (env : TaskEnv),
      (download_file hs total prev lp ru tid env).sent = reqHeadersFor hs ru) := by
  constructor
  · intro uaChoice uaCustom refererText dynRef identity connClose
    exact C4_core (if uaChoice = "Custom…" then uaCustom else uaLookup uaChoice)
      refererText dynRef identity connClose
  · intro hs total prev lp ru tid env
    exact download_file_sent hs total prev lp ru tid env

theorem claim_C4_counterexample :
    pyGet (policyHeaders "Chrome (Windows 10)" "" "" true false false) "_dynamic_referer"
      = some (.bool true) := by decide

theorem rstripSlashes_append_slash (r : String) :
    rstripSlashes (r ++ "/") = rstripSlashes r := by
  obtain ⟨cs⟩ := r
  show rstripSlashes ⟨cs ++ ['/']⟩ = rstripSlashes ⟨cs⟩
  unfold rstripSlashes
  simp [List.dropWhile]

theorem replaceBackslashes_append (a b : String) :
    replaceBackslashes (a ++ b) = replaceBackslashes a ++ replaceBackslashes b := by
  obtain ⟨as⟩ := a
  obtain ⟨bs⟩ := b
  show replaceBackslashes ⟨as ++ bs⟩ = _
  unfold replaceBackslashes
  show (⟨(as ++ bs).map _⟩ : String) = ⟨as.map _ ++ bs.map _⟩
  rw [List.map_append]

theorem replaceBackslashes_clean (s : String) (h : '\\' ∉ s.data) :
    replaceBackslashes s = s := by
  obtain ⟨cs⟩ := s
  unfold replaceBackslashes
  have hmap : cs.map (fun c => if c = '\\' then '/' else c) = cs := by
    have h1 : cs.map (fun c => if c = '\\' then '/' else c) = cs.map id := by
      apply List.map_congr_left
      intro c hc
      have hne : c ≠ '\\' := fun he => h (he ▸ hc)
      simp [hne]
    rw [h1, List.map_id]
  show (⟨cs.map _⟩ : String) = ⟨cs⟩
  rw [hmap]

theorem replaceBackslashes_join {sep : Char} (hsep : sep = '/' ∨ sep = '\\') :
    ∀ parts : List String, (∀ s ∈ parts, '\\' ∉ s.data) →
      replaceBackslashes (joinSepParts sep parts) = joinSepParts '/' parts := by
  intro parts
  induction parts with
  | nil => intro _; rfl
  | cons x rest ih =>
    intro hclean
    cases rest with
    | nil =>
      exact replaceBackslashes_clean x (hclean x (List.mem_cons_self x []))
    | cons y rest' =>
      show replaceBackslashes (x ++ (⟨[sep]⟩ : String) ++ joinSepParts sep (y :: rest')) = _
      rw [replaceBackslashes_append, replaceBackslashes_append,
        replaceBackslashes_clean x (hclean x (List.mem_cons_self x _)),
        ih (fun s hs => hclean s (List.mem_cons_of_mem _ hs))]
      have hrep : replaceBackslashes (⟨[sep]⟩ : String) = (⟨['/']⟩ : String) := by
        rcases hsep with h | h <;> subst h <;> rfl
      rw [hrep]
      rfl

/-- C5 (amended).  For every file accepted by the extension filter, the
derived remote URL equals the remote root with all trailing `/` stripped,
then `"/"`, then the file's path relative to the local root joined by the
host separator with EVERY backslash - separator or name-internal -
replaced by `/` (line 125 rewrites both alike); whenever the walked names
contain no backslash this coincides with the `/`-joined relative path, the
original claim's formula.  A remote root written with a trailing slash
derives exactly the same task list as one without, so no double slash
appears at the junction.  (The original claim, which replaces only the
platform separators, is falsified by a POSIX file whose name contains a
backslash: see the counterexample.) -/
theorem claim_C5 (sep : Char) (local_root remote_root : String)
    (walked : List (List String × String)) :
    (∀ pr ∈ filesToDownload sep local_root remote_root walked,
      ∃ comps file, (comps, file) ∈ walked ∧
        ALLOWED_EXTENSIONS.contains (lowerStr ⟨extOf file.data⟩) = true ∧
        pr.2 = rstripSlashes remote_root ++ "/"
            ++ replaceBackslashes (joinSepParts sep (comps ++ [file])) ∧
        pr.1 = local_root ++ (⟨[sep]⟩ : String) ++ joinSepParts sep (comps ++ [file]) ∧
        ((sep = '/' ∨ sep = '\\') → (∀ s ∈ comps, '\\' ∉ s.data) → '\\' ∉ file.data →
          replaceBackslashes (joinSepParts sep (comps ++ [file]))
            = joinSepParts '/' (comps ++ [file]))) ∧
    filesToDownload sep local_root (remote_root ++ "/") walked
      = filesToDownload sep local_root remote_root walked := by
  constructor
  · intro pr hpr
    unfold filesToDownload get_files_to_download at hpr
    obtain ⟨a, ha, hfa⟩ := List.mem_filterMap.mp hpr
    by_cases hc : ALLOWED_EXTENSIONS.contains (lowerStr ⟨extOf a.2.data⟩) = true
    · rw [if_pos hc] at hfa
      have hpr2 := Option.some_inj.mp hfa
      refine ⟨a.1, a.2, by simpa using ha, hc, ?_, ?_, ?_⟩
      · rw [← hpr2]
      · rw [← hpr2]
      · intro hsep hcomps hfile
        apply replaceBackslashes_join hsep
        intro s hs
        rcases List.mem_append.mp hs with h1 | h2
        · exact hcomps s h1
        · rw [List.mem_singleton.mp h2]
          exact hfile
    · rw [if_neg hc] at hfa
      simp at hfa
  · unfold filesToDownload
    rw [rstripSlashes_append_slash]

theorem claim_C5_counterexample :
    filesToDownload '/' "/root" "http://h" [([], "a\\b.jpg")]
      = [("/root/a\\b.jpg", "http://h/a/b.jpg")] ∧
    ("http://h/a/b.jpg" : String)
      ≠ rstripSlashes "http://h" ++ "/" ++ joinSepParts '/' ([] ++ ["a\\b.jpg"]) := by
  constructor
  · decide
  · decide

theorem claim_C5_witness :
    (∃ comps file, (comps, file) ∈ exWalk ∧
      ALLOWED_EXTENSIONS.contains (lowerStr ⟨extOf file.data⟩) = true ∧
      ("/root/cat.jpg", "http://h/cat.jpg").2 = rstripSlashes "http://h/" ++ "/"
          ++ replaceBackslashes (joinSepParts '/' (comps ++ [file])) ∧
      ("/root/cat.jpg", "http://h/cat.jpg").1
          = "/root" ++ (⟨['/']⟩ : String) ++ joinSepParts '/' (comps ++ [file]) ∧
      ((('/' : Char) = '/' ∨ ('/' : Char) = '\\') →
        (∀ s ∈ comps, '\\' ∉ s.data) → '\\' ∉ file.data →
        replaceBackslashes (joinSepParts '/' (comps ++ [file]))
          = joinSepParts '/' (comps ++ [file]))) ∧
    filesToDownload '/' "/root" ("http://h/" ++ "/") exWalk
      = filesToDownload '/' "/root" "http://h/" exWalk ∧
    filesToDownload '/' "/root" "http://h/" exWalk
      = [("/root/cat.jpg", "http://h/cat.jpg"), ("/root/sub/b.PNG", "http://h/sub/b.PNG")] :=
  ⟨(claim_C5 '/' "/root" "http://h/" exWalk).1 ("/root/cat.jpg", "http://h/cat.jpg")
      (by decide),
    (claim_C5 '/' "/root" "http://h/" exWalk).2, by decide⟩

/-- C6.  Throughout every run, the number of completed (counted) tasks
observed in any trace prefix never exceeds `total_tasks`, the final value of
`downloaded_files` never exceeds `total_tasks`, and - because the increment
and the percentage emission share one critical section of the lock - the
sequence of progress values emitted over the whole run is monotonically
non-decreasing under every interleaving. -/
theorem claim_C6 (cfg : RunConfig) (trace : List Event) (h : ValidRun cfg trace) :
    (cfg.tasks ≠ [] → ∀ pre suf : List Event, trace = pre ++ suf →
      pre.countP isProgressEv ≤ cfg.tasks.length) ∧
    List.Pairwise (· ≤ ·) (progressValues trace) ∧
    (∀ fs : FS, (runWorker cfg fs).2.2 ≤ cfg.tasks.length) := by
  refine ⟨?_, ?_, ?_⟩
  · intro hne pre suf heq
    have htot := validRun_countP hne h isProgressEv
      (fun t => if envSucceeds t.2 then 1 else 0)
      (fun prev lp ru tid env => unitTrace_countP_progress _ _ prev lp ru tid env)
    rw [sum_ite_eq_countP] at htot
    have hle : trace.countP isProgressEv ≤ cfg.tasks.length := by
      rw [htot]
      exact List.countP_le_length _
    rw [heq, List.countP_append] at hle
    omega
  · rcases h with ⟨he, ht⟩ | ⟨hne, ranks, hint, hprog⟩
    · subst ht
      simp [progressValues, progressOf]
    · rw [hprog]
      unfold canonicalProgress
      have hn : cfg.tasks.length ≠ 0 := by
        intro hz
        exact hne (List.length_eq_zero.mp hz)
      apply List.Pairwise.map _ ?_ (List.pairwise_lt_range _)
      intro a b hab
      exact pctFloat_mono hn (by omega)
  · intro fs
    by_cases hne : cfg.tasks = []
    · simp [runWorker, hne]
    · rw [runWorker, if_neg hne, runSeqAux_count]
      have hcp := List.countP_le_length (fun t => envSucceeds t.2) (l := cfg.tasks)
      simp only [Nat.zero_add]
      exact hcp

theorem claim_C6_witness :
    ((exCfg.tasks ≠ [] → ∀ pre suf : List Event,
        (runWorker exCfg exFS).1 = pre ++ suf →
        pre.countP isProgressEv ≤ exCfg.tasks.length) ∧
      List.Pairwise (· ≤ ·) (progressValues (runWorker exCfg exFS).1) ∧
      (∀ fs : FS, (runWorker exCfg fs).2.2 ≤ exCfg.tasks.length)) :=
  claim_C6 exCfg (runWorker exCfg exFS).1 (runWorker_valid exCfg exFS)

theorem envWritten_none_of_fail (env : TaskEnv)
    (h : envHttpFails env = true ∨ ∃ d, env.net = .transportError d) :
    envWritten env = none := by
  rcases env with ⟨net, body⟩
  rcases h with h | ⟨d, hd⟩
  · cases net with
    | resp status chunks =>
      simp only [envHttpFails] at h
      have h200 : ¬ status = 200 := by simpa using h
      cases body <;> simp [envWritten, h200]
    | transportError d => simp [envHttpFails] at h
    | raiseOther d => simp [envHttpFails] at h
  · dsimp only at hd
    subst hd
    cases body <;> simp [envWritten]

/-- C7 (amended).  For every task whose fetch returns a non-200 final
status, or whose `session.get` itself fails with a transport error (so no
response - hence no 200 - was ever received), the destination file is never
opened: the unit writes nothing, and in any run in which every task mapping
to a path `P` is of that kind, the file-system entry at `P` is unchanged
byte-for-byte.  (The original claim covered ALL transport failures; a
transport failure raised while the 200 body streams - after `open` - does
modify the file, see the counterexample.) -/
theorem claim_C7 :
    (∀ (hs : Headers) (total prev : ℕ) (lp ru : String) (tid : ℕ) (env : TaskEnv),
      envHttpFails env = true ∨ (∃ d, env.net = .transportError d) →
      (download_file hs total prev lp ru tid env).written = none) ∧
    (∀ (cfg : RunConfig) (fs : FS) (P : String),
      (∀ task ∈ cfg.tasks, task.1.1 = P →
        envHttpFails task.2 = true ∨ (∃ d, task.2.net = .transportError d)) →
      fsRead (runWorker cfg fs).2.1 P = fsRead fs P) := by
  constructor
  · intro hs total prev lp ru tid env h
    rw [download_file_written]
    exact envWritten_none_of_fail env h
  · intro cfg fs P hP
    by_cases hne : cfg.tasks = []
    · simp [runWorker, hne]
    · rw [runWorker, if_neg hne]
      exact runSeqAux_files_preserved _ _ _ P cfg.tasks 0 0 fs
        (fun task ht hp => envWritten_none_of_fail task.2 (hP task ht hp))

theorem claim_C7_counterexample :
    fsRead c7FS "/t/f.jpg" = some [1, 2, 3] ∧
    (runWorker c7Cfg c7FS).1.countP isTransportEv = 1 ∧
    fsRead (runWorker c7Cfg c7FS).2.1 "/t/f.jpg" = some [9] ∧
    (some [9] : Option (List ℕ)) ≠ some [1, 2, 3] := by decide

theorem claim_C7_witness :
    (download_file [] 1 0 "/t/b.jpg" "http://h/b.jpg" 0 ⟨.resp 404 [], .ok⟩).written
        = none ∧
    fsRead (runWorker exCfg c7FS).2.1 "/t/b.jpg" = fsRead c7FS "/t/b.jpg" :=
  ⟨claim_C7.1 [] 1 0 "/t/b.jpg" "http://h/b.jpg" 0 ⟨.resp 404 [], .ok⟩
      (Or.inl (by decide)),
    claim_C7.2 exCfg c7FS "/t/b.jpg" (by
      intro task ht hp
      simp only [exCfg, List.mem_cons, List.not_mem_nil, or_false] at ht
      rcases ht with h1 | h2
      · subst h1
        exact absurd hp (by decide)
      · subst h2
        exact Or.inl (by decide))⟩

theorem unitTrace_countP_idleEv (hs : Headers) (total prev : ℕ) (lp ru : String)
    (tid : ℕ) (env : TaskEnv) :
    (unitTrace hs total prev lp ru tid env).countP isIdleEv = 1 := by
  rcases env with ⟨net, body⟩
  cases net with
  | resp status chunks =>
    cases body <;> by_cases h200 : status = 200 <;>
      simp [unitTrace, download_file, poolEvents, isIdleEv, h200]
  | transportError d =>
    cases body <;> simp [unitTrace, download_file, poolEvents, isIdleEv]
  | raiseOther d =>
    cases body <;> simp [unitTrace, download_file, poolEvents, isIdleEv]

/-- C8.  In every valid run, each exception escaping a unit is converted at
the pool boundary into exactly one unhandled-worker-error log event (one
per escaping task, none otherwise); every dispatched task still runs to
completion (one idle signal per task, `n` in total) and sibling successes
still produce their progress events: an escaping unit aborts neither the
dispatch nor the completion of the others. -/
theorem claim_C8 (cfg : RunConfig) (trace : List Event) (h : ValidRun cfg trace)
    (hne : cfg.tasks ≠ []) :
    trace.countP isUnhandledEv = cfg.tasks.countP (fun t => envEscapes t.2) ∧
    trace.countP isIdleEv = cfg.tasks.length ∧
    trace.countP isProgressEv = countSuccesses cfg.tasks := by
  refine ⟨?_, ?_, ?_⟩
  · rw [validRun_countP hne h isUnhandledEv (fun t => if envEscapes t.2 then 1 else 0)
      (fun prev lp ru tid env => unitTrace_countP_unhandled _ _ prev lp ru tid env),
      sum_ite_eq_countP]
  · rw [validRun_countP hne h isIdleEv (fun _ => 1)
      (fun prev lp ru tid env => unitTrace_countP_idleEv _ _ prev lp ru tid env)]
    simp
  · rw [validRun_countP hne h isProgressEv (fun t => if envSucceeds t.2 then 1 else 0)
      (fun prev lp ru tid env => unitTrace_countP_progress _ _ prev lp ru tid env),
      sum_ite_eq_countP]
    rfl

theorem claim_C8_witness :
    (runWorker c8Cfg exFS).1.countP isUnhandledEv
        = c8Cfg.tasks.countP (fun t => envEscapes t.2) ∧
    (runWorker c8Cfg exFS).1.countP isIdleEv = c8Cfg.tasks.length ∧
    (runWorker c8Cfg exFS).1.countP isProgressEv = countSuccesses c8Cfg.tasks :=
  claim_C8 c8Cfg (runWorker c8Cfg exFS).1 (runWorker_valid c8Cfg exFS) (by decide)

/-- C9.  When the HTTP GET returns status 200 but opening or writing the
local file raises an OS-level error, the unit emits none of the three
outcome events - its event list is exactly busy-then-idle, so the idle
signal of the `finally` block is still emitted - `downloaded_files` is not
incremented, the exception escapes the unit, and the pool boundary turns it
into a single unhandled-worker-error log. -/
theorem claim_C9 (hs : Headers) (total prev : ℕ) (lp ru : String) (tid : ℕ)
    (chunks : List (List ℕ)) (b : BodyBehavior) (d : String)
    (hb : b = .openError d ∨ ∃ k, b = .writeError k d) :
    (download_file hs total prev lp ru tid ⟨.resp 200 chunks, b⟩).events
        = [.slotStatus tid true, .slotStatus tid false] ∧
    (download_file hs total prev lp ru tid ⟨.resp 200 chunks, b⟩).succeeded = false ∧
    (download_file hs total prev lp ru tid ⟨.resp 200 chunks, b⟩).exc = some d ∧
    poolEvents (download_file hs total prev lp ru tid ⟨.resp 200 chunks, b⟩)
        = [.slotStatus tid true, .slotStatus tid false, .log (.unhandledError d)] := by
  rcases hb with hb | ⟨k, hb⟩ <;> subst hb <;> simp [download_file, poolEvents]

theorem claim_C9_witness :
    (download_file [] 1 0 "/t/a.jpg" "u" 0 ⟨.resp 200 [[1]], .openError "perm"⟩).events
        = [.slotStatus 0 true, .slotStatus 0 false] ∧
    (download_file [] 1 0 "/t/a.jpg" "u" 0
        ⟨.resp 200 [[1]], .openError "perm"⟩).succeeded = false ∧
    (download_file [] 1 0 "/t/a.jpg" "u" 0 ⟨.resp 200 [[1]], .openError "perm"⟩).exc
        = some "perm" ∧
    poolEvents (download_file [] 1 0 "/t/a.jpg" "u" 0
        ⟨.resp 200 [[1]], .openError "perm"⟩)
        = [.slotStatus 0 true, .slotStatus 0 false, .log (.unhandledError "perm")] :=
  claim_C9 [] 1 0 "/t/a.jpg" "u" 0 [[1]] (.openError "perm") "perm" (Or.inl rfl)

/-- C10.  For every dispatched task, the directories up to and including
the parent of `local_path` are created (as by
`os.makedirs(os.path.dirname(local_path), exist_ok=True)`) regardless of
the task's environment - the call precedes the HTTP request and is outside
the `try` - so even a task whose fetch fails with a non-200 status or a
transport error leaves those directories present in the final file-system
state of the run. -/
theorem claim_C10 :
    (∀ (fs : FS) (lp : String) (u : UnitResult) (x : String),
      x ∈ mkdirsSet (dirname lp) → x ∈ (applyUnit fs lp u).dirs) ∧
    (∀ (cfg : RunConfig) (fs : FS), ∀ task ∈ cfg.tasks,
      ∀ x ∈ mkdirsSet (dirname task.1.1), x ∈ (runWorker cfg fs).2.1.dirs) := by
  constructor
  · intro fs lp u x hx
    exact applyUnit_dirs_new fs lp u hx
  · intro cfg fs task ht x hx
    have hne : cfg.tasks ≠ [] := by
      intro he
      rw [he] at ht
      exact List.not_mem_nil task ht
    rw [runWorker, if_neg hne]
    exact runSeqAux_dirs_task _ _ _ cfg.tasks 0 0 fs task ht hx

theorem claim_C10_witness :
    "/t" ∈ (applyUnit exFS "/t/b.jpg"
        (download_file [] 2 0 "/t/b.jpg" "http://h/b.jpg" 1 ⟨.resp 404 [], .ok⟩)).dirs ∧
    "/t" ∈ (runWorker exCfg exFS).2.1.dirs :=
  ⟨claim_C10.1 exFS "/t/b.jpg"
      (download_file [] 2 0 "/t/b.jpg" "http://h/b.jpg" 1 ⟨.resp 404 [], .ok⟩)
      "/t" (by decide),
    claim_C10.2 exCfg exFS (("/t/b.jpg", "http://h/b.jpg"), ⟨.resp 404 [], .ok⟩)
      (by decide) "/t" (by decide)⟩

end SuperFire
